import Mathlib

/-!
Shallow embedding of the core retrieval components of the `ai-context`
repository, together with theorems settling the frozen claims about it.

Modelled modules:
* `SimpleBM25` (sparse/simple-bm25.ts): tokenization, BM25 weight
  generation, the positivity shift and L2 normalization.
* `LibSQLVectorDatabase` (libsql-vectordb.ts): the per-collection
  `documents` table, insert (SQL INSERT OR REPLACE), delete, query with
  the default SQL LIMIT, the Milvus-style filter parser, dense search
  scoring, and RRF fusion for hybrid search.
* `QdrantVectorDatabase` (qdrant-vectordb.ts): the filter parser and the
  hybrid-search fallback to dense-only search.
* `FakeSnapshotManager` (fake-snapshot-manager.ts): the in-memory
  registry of codebase indexing states.
* `GeminiEmbedding` (gemini-embedding.ts): retryable-error
  classification and the retry loop with exponential backoff.

Numbers are modelled as exact rationals; JavaScript `Math.sqrt` and the
vector-distance primitive of the SQL backend are abstracted as function
parameters, since only order and sign properties of them are used.
-/

namespace AIContext

/-! ### Generic association-list and string helpers -/

/-- Lookup ignoring later duplicates, specialised to the JS `Map.get`
reading of an insertion-ordered association list. -/
abbrev alookup {β : Type} (l : List (String × β)) (a : String) : Option β :=
  List.lookup a l

/-- True when the first list is a prefix of the second. -/
def startsWithChars : List Char → List Char → Bool
  | [], _ => true
  | _ :: _, [] => false
  | a :: as, b :: bs => a == b && startsWithChars as bs

/-- True when `sub` occurs as a contiguous run inside the second list. -/
def containsSubChars (sub : List Char) : List Char → Bool
  | [] => startsWithChars sub []
  | c :: cs => startsWithChars sub (c :: cs) || containsSubChars sub cs

/-- True when `sub` occurs as a substring of `s`; models JS
`String.prototype.includes`. -/
def containsSub (s sub : String) : Bool :=
  containsSubChars sub.toList s.toList

/-- Remove leading and trailing whitespace; models `trim()`. -/
def trimChars (cs : List Char) : List Char :=
  ((cs.dropWhile Char.isWhitespace).reverse.dropWhile Char.isWhitespace).reverse

/-- String form of `trimChars`. -/
def strTrim (s : String) : String :=
  String.mk (trimChars s.toList)

/-- Word character of the JS regex class `\w`. -/
def isWordChar (c : Char) : Bool :=
  c.isAlphanum || c == '_'

/-- Longest prefix of word characters together with the rest. -/
def takeWordRun : List Char → List Char × List Char
  | [] => ([], [])
  | c :: cs =>
    if isWordChar c then
      let p := takeWordRun cs
      (c :: p.1, p.2)
    else ([], c :: cs)

/-- Whitespace characters recognised by the JS regex class `\s`
(restricted to the ASCII ones that occur in filter expressions). -/
def isWsChar (c : Char) : Bool :=
  c == ' ' || c == '\t' || c == '\n' || c == '\r'

/-- Longest prefix of whitespace characters together with the rest. -/
def takeWsRun : List Char → List Char × List Char
  | [] => ([], [])
  | c :: cs =>
    if isWsChar c then
      let p := takeWsRun cs
      (c :: p.1, p.2)
    else ([], c :: cs)

/-! ### SimpleBM25 (sparse/simple-bm25.ts)

The class fields after constructor-default resolution
(`k1 = 1.2`, `b = 0.75`, `minTermLength = 2`, `stopWords = {}`),
plus the state learned from the corpus. -/

structure SimpleBM25 where
  k1 : ℚ
  b : ℚ
  minTermLength : ℕ
  stopWords : List String
  vocabulary : List (String × ℕ)
  idf : List (String × ℚ)
  avgDocLength : ℚ
  trained : Bool
deriving DecidableEq

/-- Sparse vector: parallel index and value arrays. -/
structure SparseVector where
  indices : List ℕ
  values : List ℚ
deriving DecidableEq

/-- Generation configuration (sparse/types.ts `SparseVectorConfig`). -/
structure SparseVectorConfig where
  minScore : Option ℚ
  maxTerms : Option ℕ
  normalize : Bool
deriving DecidableEq

/-- Configuration used when `generate` is called without a config. -/
def emptySparseConfig : SparseVectorConfig :=
  ⟨none, none, false⟩

instance {ε α : Type} [DecidableEq ε] [DecidableEq α] : DecidableEq (Except ε α) := fun a b =>
  match a, b with
  | .ok x, .ok y =>
    if h : x = y then .isTrue (by rw [h]) else .isFalse (by intro hc; cases hc; exact h rfl)
  | .error x, .error y =>
    if h : x = y then .isTrue (by rw [h]) else .isFalse (by intro hc; cases hc; exact h rfl)
  | .ok _, .error _ => .isFalse (by intro h; cases h)
  | .error _, .ok _ => .isFalse (by intro h; cases h)

/-- Split a string into maximal runs of non-space characters. Models the
JS `split(/\s+/)` step; the empty-string artifacts JS produces at the
ends are dropped here, which agrees with the source whenever
`minTermLength ≥ 1` (the length filter removes them there). -/
def splitRuns (cs : List Char) : List String :=
  ((cs.splitOnP (fun c => c == ' ')).map (fun g => String.mk g)).filter (fun t => t ≠ "")

/-- Tokenize: lowercase, replace non-word characters by spaces, split on
whitespace runs, drop short tokens and stop words. The source keeps
pre-existing whitespace and splits on `\s+`; mapping every non-word
character (whitespace included) to a space yields the same tokens. -/
def SimpleBM25.tokenize (m : SimpleBM25) (text : String) : List String :=
  (splitRuns ((text.toList.map Char.toLower).map (fun c => if isWordChar c then c else ' '))).filter
    (fun t => decide (m.minTermLength ≤ t.length) && !(m.stopWords.contains t))

/-- Insertion-ordered term-frequency map of a token list (JS `Map`). -/
def bumpTerm (freq : List (String × ℕ)) (t : String) : List (String × ℕ) :=
  if freq.any (fun p => p.1 == t) then
    freq.map (fun p => if p.1 == t then (p.1, p.2 + 1) else p)
  else freq ++ [(t, 1)]

/-- Term frequencies in first-occurrence order. -/
def calculateTermFrequency (tokens : List String) : List (String × ℕ) :=
  tokens.foldl bumpTerm []

/-- Raw per-term BM25 weights of `generate`, in term-frequency-map
order, with unknown terms skipped and the `minScore` filter applied
exactly as in the source loop. -/
def SimpleBM25.rawScores (m : SimpleBM25) (text : String) (cfg : SparseVectorConfig) :
    List (ℕ × ℚ) :=
  let tokens := m.tokenize text
  let termFreq := calculateTermFrequency tokens
  let docLength : ℚ := (tokens.length : ℚ)
  termFreq.foldl
    (fun acc p =>
      match alookup m.vocabulary p.1, alookup m.idf p.1 with
      | some vocabIndex, some idfScore =>
        let tf : ℚ := (p.2 : ℚ)
        let normalizedTF :=
          (tf * (m.k1 + 1)) /
            (tf + m.k1 * (1 - m.b + m.b * docLength / m.avgDocLength))
        let score := idfScore * normalizedTF
        match cfg.minScore with
        | some ms => if score < ms then acc else acc ++ [(vocabIndex, score)]
        | none => acc ++ [(vocabIndex, score)]
      | _, _ => acc)
    []

/-- Keep the top `maxTerms` pairs by value, via the stable descending
sort of JS `Array.prototype.sort` with comparator `b.val - a.val`,
modelled by `List.insertionSort` on the descending relation. -/
def keepTopTerms (maxTerms : Option ℕ) (pairs : List (ℕ × ℚ)) : List (ℕ × ℚ) :=
  match maxTerms with
  | some mt =>
    if mt < pairs.length then
      (pairs.insertionSort (fun a b => b.2 ≤ a.2)).take mt
    else pairs
  | none => pairs

/-- Epsilon of the positivity shift (`1e-6` in the source). -/
def epsilonPos : ℚ := 1 / 1000000

/-- Shift all values by `(-min + epsilon)` when the minimum value is not
positive, as the source does after the filters. -/
def shiftPositive (values : List ℚ) : List ℚ :=
  match values with
  | [] => []
  | v :: vs =>
    let minValue := vs.foldl min v
    if minValue ≤ 0 then
      (v :: vs).map (fun x => x + (-minValue + epsilonPos))
    else v :: vs

/-- Optional L2 normalization. `sqrtFn` abstracts JS `Math.sqrt`; every
theorem only uses that it maps positives to positives. -/
def l2Scale (sqrtFn : ℚ → ℚ) (doNormalize : Bool) (values : List ℚ) : List ℚ :=
  if doNormalize && !values.isEmpty then
    let norm := sqrtFn (values.foldl (fun s v => s + v * v) 0)
    values.map (fun v => v / norm)
  else values

/-- Body of `SimpleBM25.generate` after the trained check: raw weights
with the `minScore` filter, then `maxTerms`, then the positivity shift,
then optional normalization. -/
def SimpleBM25.generateRun (m : SimpleBM25) (sqrtFn : ℚ → ℚ) (text : String)
    (cfg : SparseVectorConfig) : SparseVector :=
  let pairs := keepTopTerms cfg.maxTerms (m.rawScores text cfg)
  ⟨pairs.map (fun p => p.1),
    l2Scale sqrtFn cfg.normalize (shiftPositive (pairs.map (fun p => p.2)))⟩

/-- Generate a sparse vector; throws when the model is untrained. -/
def SimpleBM25.generate (m : SimpleBM25) (sqrtFn : ℚ → ℚ) (text : String)
    (cfg : SparseVectorConfig) : Except String SparseVector :=
  if m.trained then .ok (m.generateRun sqrtFn text cfg)
  else .error "BM25 generator must be trained before generating vectors. Call learn() first."

/-! ### Helper lemmas about folds used by `generate` -/

theorem foldl_min_le_init (l : List ℚ) (a : ℚ) : l.foldl min a ≤ a := by
  induction l generalizing a with
  | nil => exact le_refl a
  | cons x xs ih => exact le_trans (ih (min a x)) (min_le_left a x)

theorem foldl_min_le_mem (l : List ℚ) (a : ℚ) : ∀ x ∈ l, l.foldl min a ≤ x := by
  induction l generalizing a with
  | nil => intro x hx; cases hx
  | cons y ys ih =>
    intro x hx
    cases hx with
    | head =>
      exact le_trans (foldl_min_le_init ys (min a y)) (min_le_right a y)
    | tail _ h => exact ih (min a y) x h

theorem foldl_min_mem (l : List ℚ) (a : ℚ) : l.foldl min a ∈ a :: l := by
  induction l generalizing a with
  | nil => exact List.mem_singleton.mpr rfl
  | cons y ys ih =>
    have h := ih (min a y)
    rcases List.mem_cons.mp h with h1 | h2
    · rcases min_cases a y with ⟨he, _⟩ | ⟨he, _⟩
      · exact List.mem_cons.mpr (Or.inl (h1.trans he))
      · exact List.mem_cons.mpr (Or.inr (List.mem_cons.mpr (Or.inl (h1.trans he))))
    · exact List.mem_cons.mpr (Or.inr (List.mem_cons.mpr (Or.inr h2)))

theorem le_foldl_sumSq (l : List ℚ) (s : ℚ) : s ≤ l.foldl (fun t v => t + v * v) s := by
  induction l generalizing s with
  | nil => exact le_refl s
  | cons x xs ih =>
    exact le_trans (le_add_of_nonneg_right (mul_self_nonneg x)) (ih (s + x * x))

theorem shiftPositive_pos (values : List ℚ) : ∀ v ∈ shiftPositive values, 0 < v := by
  intro v hv
  match values with
  | [] => cases hv
  | a :: vs =>
    unfold shiftPositive at hv
    by_cases hmin : vs.foldl min a ≤ 0
    · simp only [hmin, if_pos] at hv
      rcases List.mem_map.mp hv with ⟨x, hx, hxe⟩
      have hle : vs.foldl min a ≤ x := by
        rcases List.mem_cons.mp hx with h1 | h2
        · exact h1 ▸ foldl_min_le_init vs a
        · exact foldl_min_le_mem vs a x h2
      have : 0 < x + (-(vs.foldl min a) + epsilonPos) := by
        have he : (0 : ℚ) < epsilonPos := by norm_num [epsilonPos]
        linarith
      exact hxe ▸ this
    · simp only [hmin, if_neg, not_false_iff] at hv
      push_neg at hmin
      rcases List.mem_cons.mp hv with h1 | h2
      · exact h1 ▸ lt_of_lt_of_le hmin (foldl_min_le_init vs a)
      · exact lt_of_lt_of_le hmin (foldl_min_le_mem vs a v h2)

theorem l2Scale_pos (sqrtFn : ℚ → ℚ) (doNormalize : Bool) (values : List ℚ)
    (hsqrt : ∀ x : ℚ, 0 < x → 0 < sqrtFn x) (hv : ∀ v ∈ values, 0 < v) :
    ∀ v ∈ l2Scale sqrtFn doNormalize values, 0 < v := by
  intro v hmem
  unfold l2Scale at hmem
  by_cases hc : (doNormalize && !values.isEmpty) = true
  · simp only [hc, if_pos] at hmem
    rcases List.mem_map.mp hmem with ⟨x, hx, hxe⟩
    have hvals : values ≠ [] := by
      simp only [Bool.and_eq_true] at hc
      simpa using hc.2
    have hsum : 0 < values.foldl (fun t v => t + v * v) 0 := by
      match values, hvals with
      | a :: vs, _ =>
        have ha : 0 < a := hv a (List.mem_cons_self a vs)
        calc (0 : ℚ) < a * a := mul_pos ha ha
        _ = 0 + a * a := (zero_add _).symm
        _ ≤ (a :: vs).foldl (fun t v => t + v * v) 0 := by
              simpa using le_foldl_sumSq vs (0 + a * a)
    have hnorm : 0 < sqrtFn (values.foldl (fun t v => t + v * v) 0) := hsqrt _ hsum
    exact hxe ▸ div_pos (hv x hx) hnorm
  · simp only [hc, if_neg, not_false_iff] at hmem
    exact hv v hmem

/-- Claim C6: for every trained BM25 model, every input text and every
generation configuration, every sparse vector emitted by `generate` has
all values strictly greater than 0 (over the exact-rational semantics,
with `sqrtFn` abstracting `Math.sqrt` as a positivity-preserving map). -/
theorem claim_C6 (m : SimpleBM25) (sqrtFn : ℚ → ℚ) (text : String)
    (cfg : SparseVectorConfig) (sv : SparseVector)
    (hsqrt : ∀ x : ℚ, 0 < x → 0 < sqrtFn x)
    (hgen : m.generate sqrtFn text cfg = .ok sv) :
    ∀ v ∈ sv.values, 0 < v := by
  unfold SimpleBM25.generate at hgen
  by_cases ht : m.trained = true
  · simp only [ht, if_pos] at hgen
    have hsv : sv = m.generateRun sqrtFn text cfg := by
      cases hgen; rfl
    subst hsv
    unfold SimpleBM25.generateRun
    intro v hv
    exact l2Scale_pos sqrtFn cfg.normalize _ hsqrt (shiftPositive_pos _) v hv
  · simp only [ht, if_neg, not_false_iff] at hgen
    cases hgen

/-- Trained single-term model used to witness the BM25 claims. -/
def witnessModel : SimpleBM25 :=
  ⟨6/5, 3/4, 2, [], [("aa", 0)], [("aa", 1)], 1, true⟩

theorem witnessModel_tokenize : witnessModel.tokenize "aa" = ["aa"] := by decide

theorem witnessModel_generate :
    witnessModel.generate (fun x => x) "aa" emptySparseConfig = .ok ⟨[0], [1]⟩ := by
  have hts : calculateTermFrequency ["aa"] = [("aa", 1)] := by decide
  simp only [SimpleBM25.generate, SimpleBM25.generateRun, SimpleBM25.rawScores,
    witnessModel_tokenize, hts]
  norm_num [witnessModel, emptySparseConfig, keepTopTerms, shiftPositive,
    l2Scale, alookup, epsilonPos]

theorem claim_C6_witness : (0 : ℚ) < 1 :=
  claim_C6 witnessModel (fun x => x) "aa" emptySparseConfig ⟨[0], [1]⟩
    (fun _ hx => hx) witnessModel_generate 1 (List.mem_singleton.mpr rfl)

/-! ### Claim C7: order of the positivity shift and the filters -/

/-- Modelled from the spec: section 4.5 lists the positivity shift step
BEFORE the `minScore` and `maxTerms` steps, so the filters would operate
on the shifted, strictly positive values. This definition follows that
wording; it exists only to be compared against the source-embedded
`SimpleBM25.generate`. -/
def SimpleBM25.generateSpecOrder (m : SimpleBM25) (sqrtFn : ℚ → ℚ) (text : String)
    (cfg : SparseVectorConfig) : Except String SparseVector :=
  if m.trained then
    let raw := m.rawScores text ⟨none, none, false⟩
    let shifted := (raw.map (fun p => p.1)).zip (shiftPositive (raw.map (fun p => p.2)))
    let afterMin :=
      match cfg.minScore with
      | some ms => shifted.filter (fun p => decide (ms ≤ p.2))
      | none => shifted
    let afterMax := keepTopTerms cfg.maxTerms afterMin
    .ok ⟨afterMax.map (fun p => p.1),
      l2Scale sqrtFn cfg.normalize (afterMax.map (fun p => p.2))⟩
  else .error "BM25 generator must be trained before generating vectors. Call learn() first."

/-- Model with one negative-IDF and one positive-IDF term, on which the
two step orders produce different outputs. -/
def modelC7 : SimpleBM25 :=
  ⟨6/5, 3/4, 2, [], [("aa", 0), ("bb", 1)], [("aa", -1), ("bb", 1)], 2, true⟩

/-- Configuration with a minScore threshold between the two weights. -/
def cfgC7 : SparseVectorConfig := ⟨some (1/2), none, false⟩

theorem modelC7_tokenize : modelC7.tokenize "aa bb" = ["aa", "bb"] := by decide

theorem modelC7_generate :
    modelC7.generate (fun x => x) "aa bb" cfgC7 = .ok ⟨[1], [1]⟩ := by
  have hts : calculateTermFrequency ["aa", "bb"] = [("aa", 1), ("bb", 1)] := by decide
  have hbb : ("bb" == "aa") = false := by decide
  simp only [SimpleBM25.generate, SimpleBM25.generateRun, SimpleBM25.rawScores,
    modelC7_tokenize, hts]
  norm_num [modelC7, cfgC7, keepTopTerms, shiftPositive, l2Scale, alookup, epsilonPos,
    List.lookup, hbb]

theorem modelC7_generateSpecOrder :
    modelC7.generateSpecOrder (fun x => x) "aa bb" cfgC7 = .ok ⟨[1], [2 + 1/1000000]⟩ := by
  have hts : calculateTermFrequency ["aa", "bb"] = [("aa", 1), ("bb", 1)] := by decide
  have hbb : ("bb" == "aa") = false := by decide
  simp only [SimpleBM25.generateSpecOrder, SimpleBM25.rawScores, modelC7_tokenize, hts]
  norm_num [modelC7, cfgC7, keepTopTerms, shiftPositive, l2Scale, alookup, epsilonPos,
    List.lookup, hbb]

/-- Claim C7 counterexample: on `modelC7` with `minScore = 1/2` and the
text "aa bb", the source `generate` (filters first, then shift) emits
the value 1, while the spec-ordered variant (shift first, then filters)
emits 2 + 1e-6: the claimed step order mispredicts the output. -/
theorem claim_C7_counterexample :
    modelC7.generate (fun x => x) "aa bb" cfgC7 ≠
      modelC7.generateSpecOrder (fun x => x) "aa bb" cfgC7 := by
  rw [modelC7_generate, modelC7_generateSpecOrder]
  intro h
  have hv : (1 : ℚ) = 2 + 1/1000000 := by
    have := congrArg (fun e => match e with
      | Except.ok (sv : SparseVector) => sv.values
      | Except.error _ => []) h
    simpa using this
  norm_num at hv

/-- Surviving weights: the raw BM25 weights after the `minScore` and
`maxTerms` filters, before any shift. -/
def survivingWeights (m : SimpleBM25) (text : String) (cfg : SparseVectorConfig) : List ℚ :=
  (keepTopTerms cfg.maxTerms (m.rawScores text cfg)).map (fun p => p.2)

theorem l2Scale_false (sqrtFn : ℚ → ℚ) (vs : List ℚ) : l2Scale sqrtFn false vs = vs := by
  simp [l2Scale]

theorem shiftPositive_of_pos (vs : List ℚ) (h : ∀ w ∈ vs, 0 < w) :
    shiftPositive vs = vs := by
  match vs with
  | [] => rfl
  | v :: tl =>
    have hmem := foldl_min_mem tl v
    have hpos : 0 < tl.foldl min v := h _ hmem
    simp only [shiftPositive]
    rw [if_neg (not_le.mpr hpos)]

theorem shiftPositive_of_nonpos (vs : List ℚ) (w₀ : ℚ) (hw : w₀ ∈ vs) (h0 : w₀ ≤ 0) :
    ∃ mv ∈ vs, (∀ w ∈ vs, mv ≤ w) ∧
      shiftPositive vs = vs.map (fun w => w + (-mv + epsilonPos)) := by
  match vs, hw with
  | v :: tl, hw =>
    refine ⟨tl.foldl min v, foldl_min_mem tl v, ?_, ?_⟩
    · intro w hmem
      rcases List.mem_cons.mp hmem with h1 | h2
      · exact h1 ▸ foldl_min_le_init tl v
      · exact foldl_min_le_mem tl v w h2
    · have hle : tl.foldl min v ≤ 0 := by
        rcases List.mem_cons.mp hw with h1 | h2
        · exact le_trans (h1 ▸ foldl_min_le_init tl v) h0
        · exact le_trans (foldl_min_le_mem tl v w₀ h2) h0
      simp only [shiftPositive]
      rw [if_pos hle]

/-- Claim C7 amended: `generate` applies the `minScore` and `maxTerms`
filters to the raw BM25 weights first; only afterwards, when some
surviving value is not positive, it shifts all surviving values by
`(-min + epsilon)` with `epsilon = 1e-6`. So the filters operate on the
unshifted weights, and the shift operates on the filtered weights
(stated here for unnormalized output; normalization is a final rescale). -/
theorem claim_C7_amended (m : SimpleBM25) (sqrtFn : ℚ → ℚ) (text : String)
    (cfg : SparseVectorConfig) (sv : SparseVector)
    (hgen : m.generate sqrtFn text cfg = .ok sv) (hnorm : cfg.normalize = false) :
    sv.indices = (keepTopTerms cfg.maxTerms (m.rawScores text cfg)).map (fun p => p.1) ∧
    ((∀ w ∈ survivingWeights m text cfg, 0 < w) → sv.values = survivingWeights m text cfg) ∧
    (∀ w₀ ∈ survivingWeights m text cfg, w₀ ≤ 0 →
      ∃ mv ∈ survivingWeights m text cfg, (∀ w ∈ survivingWeights m text cfg, mv ≤ w) ∧
        sv.values = (survivingWeights m text cfg).map (fun w => w + (-mv + epsilonPos))) := by
  unfold SimpleBM25.generate at hgen
  by_cases ht : m.trained = true
  · simp only [ht, if_pos] at hgen
    have hsv : sv = m.generateRun sqrtFn text cfg := by cases hgen; rfl
    subst hsv
    unfold SimpleBM25.generateRun
    refine ⟨rfl, ?_, ?_⟩
    · intro hpos
      show l2Scale sqrtFn cfg.normalize (shiftPositive (survivingWeights m text cfg)) =
        survivingWeights m text cfg
      rw [hnorm, l2Scale_false, shiftPositive_of_pos _ hpos]
    · intro w₀ hw h0
      obtain ⟨mv, hmem, hlb, heq⟩ := shiftPositive_of_nonpos _ w₀ hw h0
      refine ⟨mv, hmem, hlb, ?_⟩
      show l2Scale sqrtFn cfg.normalize (shiftPositive (survivingWeights m text cfg)) = _
      rw [hnorm, l2Scale_false, heq]
  · simp only [ht, if_neg, not_false_iff] at hgen
    cases hgen

theorem claim_C7_amended_witness :
    (SparseVector.mk [1] [1]).indices =
      (keepTopTerms cfgC7.maxTerms (modelC7.rawScores "aa bb" cfgC7)).map (fun p => p.1) ∧
    ((∀ w ∈ survivingWeights modelC7 "aa bb" cfgC7, 0 < w) →
      (SparseVector.mk [1] [1]).values = survivingWeights modelC7 "aa bb" cfgC7) ∧
    (∀ w₀ ∈ survivingWeights modelC7 "aa bb" cfgC7, w₀ ≤ 0 →
      ∃ mv ∈ survivingWeights modelC7 "aa bb" cfgC7,
        (∀ w ∈ survivingWeights modelC7 "aa bb" cfgC7, mv ≤ w) ∧
        (SparseVector.mk [1] [1]).values =
          (survivingWeights modelC7 "aa bb" cfgC7).map (fun w => w + (-mv + epsilonPos))) :=
  claim_C7_amended modelC7 (fun x => x) "aa bb" cfgC7 ⟨[1], [1]⟩ modelC7_generate rfl

/-! ### LibSQLVectorDatabase (libsql-vectordb.ts)

A collection is one SQLite file: `_metadata` facts plus the `documents`
table, kept here as a row list in rowid (insertion) order. -/

/-- Vector document (types.ts `VectorDocument`); `metadata` holds the
JSON text stored in the `metadata` column. -/
structure VectorDocument where
  id : String
  vector : List ℚ
  content : String
  relativePath : String
  startLine : ℤ
  endLine : ℤ
  fileExtension : String
  metadata : String
deriving DecidableEq

/-- State of one LibSQL collection. -/
structure LibSQLCollection where
  dimension : ℕ
  isHybrid : Bool
  rows : List VectorDocument
deriving DecidableEq

/-- SQL `INSERT OR REPLACE`: the conflicting row (same primary key) is
removed and the fresh row is appended with a new rowid. -/
def upsertRow (rows : List VectorDocument) (d : VectorDocument) : List VectorDocument :=
  (rows.filter (fun r => r.id != d.id)) ++ [d]

/-- Method `insert`: validate all vector dimensions, then batch
INSERT OR REPLACE. -/
def LibSQLCollection.insert (c : LibSQLCollection) (documents : List VectorDocument) :
    Except String LibSQLCollection :=
  match documents.find? (fun d => d.vector.length != c.dimension) with
  | some d => .error ("Vector dimension mismatch for document " ++ d.id)
  | none => .ok { c with rows := documents.foldl upsertRow c.rows }

/-- Method `delete`: `DELETE FROM documents WHERE id IN (...)`. SQLite
accepts an empty IN list (matching nothing), and ids with no matching
row simply remove nothing. -/
def LibSQLCollection.deleteIds (c : LibSQLCollection) (ids : List String) : LibSQLCollection :=
  { c with rows := c.rows.filter (fun r => !(ids.contains r.id)) }

/-- Method `mapFieldName`: camelCase fields to column names. -/
def mapFieldName (field : String) : String :=
  if field == "relativePath" then "relative_path"
  else if field == "startLine" then "start_line"
  else if field == "endLine" then "end_line"
  else if field == "fileExtension" then "file_extension"
  else field

/-- Contents before the last closing bracket, if any; models the greedy
`(.*)` group of the regex used for the `in` filter form. -/
def lastCloseSplit (cs : List Char) : Option (List Char) :=
  match cs.reverse.dropWhile (fun c => c != ']') with
  | [] => none
  | _ :: restRev => some restRev.reverse

/-- Attempt the regex match for the filter form `field in [...]` at the
start of the given character list. -/
def tryInAt (cs : List Char) : Option (String × String) :=
  let fw := takeWordRun cs
  if fw.1.isEmpty then none else
  let w1 := takeWsRun fw.2
  if w1.1.isEmpty then none else
  match w1.2 with
  | 'i' :: 'n' :: r3 =>
    let w2 := takeWsRun r3
    if w2.1.isEmpty then none else
    match w2.2 with
    | '[' :: r5 =>
      match lastCloseSplit r5 with
      | some inner => some (String.mk fw.1, String.mk inner)
      | none => none
    | _ => none
  | _ => none

/-- Scan for the first position where the `in` pattern matches. -/
def scanIn : List Char → Option (String × String)
  | [] => none
  | c :: cs =>
    match tryInAt (c :: cs) with
    | some r => some r
    | none => scanIn cs

/-- Attempt the regex match for the LibSQL filter form `field == rhs`
at the start of the character list; the right-hand side is the greedy
rest of the (single-line) expression. -/
def tryEqAt (cs : List Char) : Option (String × String) :=
  let fw := takeWordRun cs
  if fw.1.isEmpty then none else
  let w1 := takeWsRun fw.2
  match w1.2 with
  | '=' :: '=' :: r3 =>
    let w2 := takeWsRun r3
    if w2.2.isEmpty then none else some (String.mk fw.1, String.mk w2.2)
  | _ => none

/-- Scan for the first position where the `==` pattern matches. -/
def scanEq : List Char → Option (String × String)
  | [] => none
  | c :: cs =>
    match tryEqAt (c :: cs) with
    | some r => some r
    | none => scanEq cs

/-- Join strings with a separator (models `Array.prototype.join`). -/
def joinSep (sep : String) : List String → String
  | [] => ""
  | [x] => x
  | x :: y :: xs => x ++ sep ++ joinSep sep (y :: xs)

/-- Second `if` of `parseFilterExpression`: the `==` form; unrecognized
expressions are warned about and returned verbatim (the `true` flag
records that the warning was printed). -/
def parseFilterEqBranch (expr : String) : String × Bool :=
  if containsSub expr "==" then
    match scanEq expr.toList with
    | some fe => (mapFieldName fe.1 ++ " = " ++ strTrim fe.2, false)
    | none => (expr, true)
  else (expr, true)

/-- Method `parseFilterExpression`: convert a Milvus-style filter to a
SQL WHERE fragment; returns the fragment and whether the
unrecognized-expression warning fired. -/
def parseFilterExpression (expr : String) : String × Bool :=
  if containsSub expr " in " then
    match scanIn expr.toList with
    | some fi =>
      (mapFieldName fi.1 ++ " IN (" ++
        joinSep "," ((fi.2.toList.splitOnP (fun c => c == ',')).map
          (fun g => strTrim (String.mk g))) ++ ")", false)
    | none => parseFilterEqBranch expr
  else parseFilterEqBranch expr

/-! A small WHERE-clause evaluator modelling the SQLite engine on the
clause space reachable here: `col = lit`, `col != lit`,
`col IN (lit, ...)` with quoted string literals; anything else is a
prepare-time SQL error, as is an unknown column name. -/

inductive SqlOp where
  | eqLit (lit : String)
  | neLit (lit : String)
  | inList (lits : List String)
deriving DecidableEq

structure SqlCond where
  column : String
  op : SqlOp
deriving DecidableEq

/-- Parse a quoted SQL string literal, returning body and rest. -/
def parseSqlLit : List Char → Option (String × List Char)
  | '\'' :: rest =>
    let body := rest.takeWhile (fun c => c != '\'')
    match rest.dropWhile (fun c => c != '\'') with
    | '\'' :: after => some (String.mk body, after)
    | _ => none
  | _ => none

/-- Parse a nonempty comma-separated literal list up to the closing
parenthesis (fuel-indexed). -/
def parseSqlItems : ℕ → List Char → Option (List String × List Char)
  | 0, _ => none
  | n + 1, cs =>
    match parseSqlLit cs with
    | none => none
    | some (lit, rest) =>
      match (takeWsRun rest).2 with
      | ',' :: rest2 =>
        match parseSqlItems n (takeWsRun rest2).2 with
        | some (lits, rest4) => some (lit :: lits, rest4)
        | none => none
      | ')' :: rest2 => some ([lit], rest2)
      | _ => none

/-- Parse a WHERE fragment into a condition, or fail (SQL syntax error). -/
def parseSqlCond (clause : String) : Option SqlCond :=
  let cs := (takeWsRun clause.toList).2
  let fw := takeWordRun cs
  if fw.1.isEmpty then none else
  let column := String.mk fw.1
  match (takeWsRun fw.2).2 with
  | '!' :: '=' :: r2 =>
    match parseSqlLit (takeWsRun r2).2 with
    | some (lit, rest) =>
      if (trimChars rest).isEmpty then some ⟨column, .neLit lit⟩ else none
    | none => none
  | '=' :: r2 =>
    match parseSqlLit (takeWsRun r2).2 with
    | some (lit, rest) =>
      if (trimChars rest).isEmpty then some ⟨column, .eqLit lit⟩ else none
    | none => none
  | 'I' :: 'N' :: r2 =>
    match (takeWsRun r2).2 with
    | '(' :: r4 =>
      match (takeWsRun r4).2 with
      | ')' :: rest =>
        if (trimChars rest).isEmpty then some ⟨column, .inList []⟩ else none
      | r5 =>
        match parseSqlItems (r5.length + 1) r5 with
        | some (lits, rest) =>
          if (trimChars rest).isEmpty then some ⟨column, .inList lits⟩ else none
        | none => none
    | _ => none
  | _ => none

/-- Read a column of a document row as its SQL text value; the three
vector/sparse columns hold non-text payloads and compare as no match. -/
def getColumn (d : VectorDocument) : String → Option String
  | "id" => some d.id
  | "content" => some d.content
  | "relative_path" => some d.relativePath
  | "start_line" => some (toString d.startLine)
  | "end_line" => some (toString d.endLine)
  | "file_extension" => some d.fileExtension
  | "metadata" => some d.metadata
  | _ => none

/-- Evaluate a parsed condition on one row. -/
def evalSqlCond (cond : SqlCond) (d : VectorDocument) : Bool :=
  match getColumn d cond.column with
  | none => false
  | some v =>
    match cond.op with
    | .eqLit lit => v == lit
    | .neLit lit => v != lit
    | .inList lits => lits.contains v

/-- Columns of the `documents` table. -/
def knownColumns : List String :=
  ["id", "content", "relative_path", "start_line", "end_line", "file_extension",
   "metadata", "dense_vector", "sparse_indices", "sparse_values"]

/-- Prepare a WHERE fragment: syntax errors and unknown columns fail at
prepare time (before any row is seen), as in SQLite. -/
def compileWhere (clause : String) : Except String (VectorDocument → Bool) :=
  match parseSqlCond clause with
  | none => .error ("SQL syntax error in WHERE clause: " ++ clause)
  | some cond =>
    if knownColumns.contains cond.column then .ok (fun d => evalSqlCond cond d)
    else .error ("no such column: " ++ cond.column)

/-- Effective `LIMIT` argument: JS `limit || 100`. -/
def effectiveLimit (limit : Option ℕ) : ℕ :=
  match limit with
  | none => 100
  | some l => if l == 0 then 100 else l

/-- Method `rowToResult`: project a row to the requested fields,
preferring the mapped column name and falling back to the raw name. -/
def rowToResult (d : VectorDocument) (outputFields : List String) : List (String × String) :=
  outputFields.foldl
    (fun acc f =>
      match getColumn d (mapFieldName f) with
      | some v => acc ++ [(f, v)]
      | none =>
        match getColumn d f with
        | some v => acc ++ [(f, v)]
        | none => acc)
    []

/-- Row selection of method `query`: optional WHERE clause from the
filter expression (skipped for a blank filter, JS truthiness). -/
def LibSQLCollection.queryRows (c : LibSQLCollection) (filter : String) :
    Except String (List VectorDocument) :=
  if strTrim filter ≠ "" then
    match compileWhere (parseFilterExpression filter).1 with
    | .error e => .error e
    | .ok p => .ok (c.rows.filter p)
  else .ok c.rows

/-- Method `query`: WHERE, then LIMIT (default 100), then projection. -/
def LibSQLCollection.query (c : LibSQLCollection) (filter : String)
    (outputFields : List String) (limit : Option ℕ) :
    Except String (List (List (String × String))) :=
  (c.queryRows filter).map
    (fun rows => (rows.take (effectiveLimit limit)).map (fun d => rowToResult d outputFields))

/-- True when method `query` prints the unrecognized-filter warning. -/
def queryWarns (filter : String) : Bool :=
  strTrim filter != "" && (parseFilterExpression filter).2

/-! ### Lemmas on the store operations -/

theorem foldl_upsert_preserves (docs : List VectorDocument) (rows : List VectorDocument)
    (i : String) (h : ∃ r ∈ rows, r.id = i) :
    ∃ r ∈ docs.foldl upsertRow rows, r.id = i := by
  induction docs generalizing rows with
  | nil => exact h
  | cons d ds ih =>
    apply ih
    obtain ⟨r, hr, hri⟩ := h
    by_cases hcase : r.id = d.id
    · exact ⟨d, List.mem_append_right _ (List.mem_singleton.mpr rfl), by rw [← hcase, hri]⟩
    · refine ⟨r, List.mem_append_left _ ?_, hri⟩
      refine List.mem_filter.mpr ⟨hr, ?_⟩
      simp [bne_iff_ne, hcase]

theorem foldl_upsert_contains (docs : List VectorDocument) (rows : List VectorDocument)
    (d : VectorDocument) (h : d ∈ docs) :
    ∃ r ∈ docs.foldl upsertRow rows, r.id = d.id := by
  induction docs generalizing rows with
  | nil => cases h
  | cons x xs ih =>
    rcases List.mem_cons.mp h with h1 | h2
    · subst h1
      exact foldl_upsert_preserves xs (upsertRow rows d) d.id
        ⟨d, List.mem_append_right _ (List.mem_singleton.mpr rfl), rfl⟩
    · exact ih (upsertRow rows x) h2

theorem upsertRow_filter_id (rows : List VectorDocument) (d : VectorDocument) :
    (upsertRow rows d).filter (fun r => r.id == d.id) = [d] := by
  unfold upsertRow
  rw [List.filter_append]
  have h1 : (rows.filter (fun r => r.id != d.id)).filter (fun r => r.id == d.id) = [] := by
    rw [List.filter_filter]
    apply List.filter_eq_nil_iff.mpr
    intro r _
    by_cases hc : r.id = d.id <;> simp [hc]
  rw [h1]
  simp

theorem rowToResult_mem (d : VectorDocument) (fields : List String) (p : String × String)
    (hp : p ∈ rowToResult d fields) :
    getColumn d (mapFieldName p.1) = some p.2 ∨
      (getColumn d (mapFieldName p.1) = none ∧ getColumn d p.1 = some p.2) := by
  unfold rowToResult at hp
  suffices hgen : ∀ (fs : List String) (acc : List (String × String)),
      (∀ q ∈ acc, getColumn d (mapFieldName q.1) = some q.2 ∨
        (getColumn d (mapFieldName q.1) = none ∧ getColumn d q.1 = some q.2)) →
      p ∈ fs.foldl
        (fun acc f =>
          match getColumn d (mapFieldName f) with
          | some v => acc ++ [(f, v)]
          | none =>
            match getColumn d f with
            | some v => acc ++ [(f, v)]
            | none => acc) acc →
      getColumn d (mapFieldName p.1) = some p.2 ∨
        (getColumn d (mapFieldName p.1) = none ∧ getColumn d p.1 = some p.2) by
    exact hgen fields [] (by intro q hq; cases hq) hp
  intro fs
  induction fs with
  | nil =>
    intro acc hacc hmem
    exact hacc p hmem
  | cons f fs ih =>
    intro acc hacc hmem
    refine ih _ ?_ hmem
    intro q hq
    match h1 : getColumn d (mapFieldName f) with
    | some v =>
      simp only [h1] at hq
      rcases List.mem_append.mp hq with hqa | hqe
      · exact hacc q hqa
      · have : q = (f, v) := List.mem_singleton.mp hqe
        subst this
        exact Or.inl h1
    | none =>
      simp only [h1] at hq
      match h2 : getColumn d f with
      | some v =>
        simp only [h2] at hq
        rcases List.mem_append.mp hq with hqa | hqe
        · exact hacc q hqa
        · have : q = (f, v) := List.mem_singleton.mp hqe
          subst this
          exact Or.inr ⟨h1, h2⟩
      | none =>
        simp only [h2] at hq
        exact hacc q hq

theorem rowToResult_id_value (d : VectorDocument) (fields : List String) (v : String)
    (hp : ("id", v) ∈ rowToResult d fields) : v = d.id := by
  rcases rowToResult_mem d fields ("id", v) hp with h | ⟨h, _⟩
  · have hm : mapFieldName "id" = "id" := by decide
    rw [hm] at h
    have : some d.id = some v := by
      have : getColumn d "id" = some d.id := rfl
      rw [this] at h
      exact h.symm ▸ rfl
    simpa [getColumn] using h.symm
  · have hm : mapFieldName "id" = "id" := by decide
    rw [hm] at h
    simp [getColumn] at h

theorem query_empty_filter (c : LibSQLCollection) (outputFields : List String)
    (limit : Option ℕ) :
    c.query "" outputFields limit =
      .ok ((c.rows.take (effectiveLimit limit)).map (fun d => rowToResult d outputFields)) := by
  have h : c.queryRows "" = .ok c.rows := by
    unfold LibSQLCollection.queryRows
    simp [strTrim, trimChars]
  unfold LibSQLCollection.query
  rw [h]
  rfl

/-- Claim C2 counterexample: inserting 101 documents into a fresh
collection and then issuing `query(C, "", ["id"])` with the limit
omitted (SQL LIMIT defaults to 100) does not return the id of the 101st
document, refuting the unconditional containment postcondition. -/
def docN (i : ℕ) : VectorDocument :=
  ⟨"d" ++ toString i, [], "", "", 0, 0, "", ""⟩

def docs101 : List VectorDocument := (List.range 101).map docN

def emptyC : LibSQLCollection := ⟨0, false, []⟩

def c101 : LibSQLCollection := ⟨0, false, docs101⟩

set_option maxRecDepth 100000 in
theorem claim_C2_counterexample :
    emptyC.insert docs101 = .ok c101 ∧
    docs101.all (fun d => d.vector.length == emptyC.dimension) = true ∧
    (docs101.map (fun d => d.id)).contains "d100" = true ∧
    (LibSQLCollection.query c101 "" ["id"] none).map
      (fun rs => rs.any (fun row => row.contains ("id", "d100"))) = .ok false := by
  decide

/-- Claim C2 amended: after `insert(C, D)` with vectors of the
collection dimension, `query(C, "", ["id"], limit)` contains every id of
D provided the limit (default 100) is at least the stored row count; an
id collision replaces the previously stored document; after
`delete(C, ids)` none of `ids` appear in any projected query row; and
deleting only non-existent ids is a silent no-op (delete never errors,
being a total operation). -/
theorem claim_C2_amended :
    (∀ (c : LibSQLCollection) (documents : List VectorDocument) (c' : LibSQLCollection)
       (limit : Option ℕ) (rs : List (List (String × String))),
       c.insert documents = .ok c' →
       c'.rows.length ≤ effectiveLimit limit →
       c'.query "" ["id"] limit = .ok rs →
       ∀ d ∈ documents, ∃ row ∈ rs, ("id", d.id) ∈ row) ∧
    (∀ (rows : List VectorDocument) (d : VectorDocument),
       (upsertRow rows d).filter (fun r => r.id == d.id) = [d]) ∧
    (∀ (c : LibSQLCollection) (ids : List String) (fields : List String) (limit : Option ℕ)
       (rs : List (List (String × String))),
       (c.deleteIds ids).query "" fields limit = .ok rs →
       ∀ row ∈ rs, ∀ i ∈ ids, ("id", i) ∉ row) ∧
    (∀ (c : LibSQLCollection) (ids : List String),
       (∀ r ∈ c.rows, ids.contains r.id = false) → c.deleteIds ids = c) := by
  refine ⟨?_, upsertRow_filter_id, ?_, ?_⟩
  · intro c documents c' limit rs hins hlen hq d hd
    have hrows : c'.rows = documents.foldl upsertRow c.rows := by
      unfold LibSQLCollection.insert at hins
      match hf : documents.find? (fun d => d.vector.length != c.dimension) with
      | some x => rw [hf] at hins; cases hins
      | none => rw [hf] at hins; cases hins; rfl
    obtain ⟨r, hr, hri⟩ := foldl_upsert_contains documents c.rows d hd
    rw [← hrows] at hr
    rw [query_empty_filter] at hq
    have hq' : rs = (c'.rows.take (effectiveLimit limit)).map (fun d => rowToResult d ["id"]) := by
      cases hq; rfl
    rw [List.take_of_length_le hlen] at hq'
    refine ⟨rowToResult r ["id"], ?_, ?_⟩
    · rw [hq']
      exact List.mem_map_of_mem _ hr
    · have : rowToResult r ["id"] = [("id", r.id)] := by
        simp [rowToResult, mapFieldName, getColumn]
      rw [this, hri]
      exact List.mem_singleton.mpr rfl
  · intro c ids fields limit rs hq row hrow i hi hmem
    rw [query_empty_filter] at hq
    have hq' : rs = ((c.deleteIds ids).rows.take (effectiveLimit limit)).map
        (fun d => rowToResult d fields) := by cases hq; rfl
    rw [hq'] at hrow
    obtain ⟨r, hr, hre⟩ := List.mem_map.mp hrow
    have hr2 : r ∈ (c.deleteIds ids).rows := List.mem_of_mem_take hr
    have hnot : ids.contains r.id = false := by
      unfold LibSQLCollection.deleteIds at hr2
      have := (List.mem_filter.mp hr2).2
      simpa using this
    have hval : i = r.id := rowToResult_id_value r fields i (hre ▸ hmem)
    rw [hval] at hi
    have : r.id ∉ ids := by simpa using hnot
    exact this hi
  · intro c ids h
    unfold LibSQLCollection.deleteIds
    have : c.rows.filter (fun r => !(ids.contains r.id)) = c.rows := by
      apply List.filter_eq_self.mpr
      intro r hr
      rw [h r hr]
      rfl
    rw [this]

/-- Document and one-row collection used by the store witnesses. -/
def docA : VectorDocument := ⟨"a", [], "ca", "a.ts", 1, 2, ".ts", ""⟩

def collA : LibSQLCollection := ⟨0, false, [docA]⟩

theorem claim_C2_amended_witness :
    ∃ row ∈ [[("id", "a")]], ("id", "a") ∈ row :=
  claim_C2_amended.1 emptyC [docA] collA none [[("id", "a")]]
    (by decide) (by decide) (by decide) docA (by decide)

/-- Claim C10: when the `limit` argument of the local query operation is
omitted, the SQL LIMIT defaults to 100, so at most 100 rows come back
even when more documents match; concretely, the 101-row collection
answers an empty-filter query with exactly 100 rows. -/
theorem claim_C10 :
    (∀ (c : LibSQLCollection) (filter : String) (fields : List String)
       (rs : List (List (String × String))),
       c.query filter fields none = .ok rs → rs.length ≤ 100) ∧
    c101.rows.length = 101 ∧
    (LibSQLCollection.query c101 "" ["id"] none).map List.length = .ok 100 := by
  refine ⟨?_, by decide, by decide⟩
  intro c filter fields rs hq
  unfold LibSQLCollection.query at hq
  match hqr : c.queryRows filter with
  | .error e => rw [hqr] at hq; cases hq
  | .ok rows =>
    rw [hqr] at hq
    have : rs = (rows.take (effectiveLimit none)).map (fun d => rowToResult d fields) := by
      cases hq; rfl
    rw [this, List.length_map]
    calc (rows.take (effectiveLimit none)).length ≤ effectiveLimit none :=
          List.length_take_le _ _
    _ = 100 := rfl

theorem claim_C10_witness : ([[("id", "a")]] : List (List (String × String))).length ≤ 100 :=
  claim_C10.1 collA "" ["id"] [[("id", "a")]] (by decide)

/-! ### Dense search (method `search` of the LibSQL store) -/

/-- Search options (types.ts `SearchOptions`). -/
structure SearchOptions where
  topK : Option ℕ
  threshold : Option ℚ
  filterExpr : Option String
deriving DecidableEq

/-- Effective topK / limit argument: JS `options?.topK || 10`. -/
def effectiveTopK (topK : Option ℕ) : ℕ :=
  match topK with
  | none => 10
  | some k => if k == 0 then 10 else k

/-- Score of the source: `1 / (1 + distance)`. -/
def searchScore (distance : ℚ) : ℚ := 1 / (1 + distance)

/-- Rows in ascending distance order (`ORDER BY distance ASC`); `dist`
abstracts `vector_distance_cos` against the fixed query vector, which is
non-negative for the cosine distance the backend returns. -/
def distAscSort (dist : VectorDocument → ℚ) (rows : List VectorDocument) :
    List VectorDocument :=
  rows.insertionSort (fun a b => dist a ≤ dist b)

/-- Candidate set of `vector_top_k(idx_dense, q, n)`: the `n` nearest
rows by distance. -/
def vectorTopK (dist : VectorDocument → ℚ) (rows : List VectorDocument) (n : ℕ) :
    List VectorDocument :=
  (distAscSort dist rows).take n

/-- Tail of the search SQL: ORDER BY distance ASC LIMIT topK, then the
score computation of the result loop. -/
def orderScoreLimit (dist : VectorDocument → ℚ) (topK : ℕ) (rows : List VectorDocument) :
    List (VectorDocument × ℚ) :=
  ((distAscSort dist rows).take topK).map (fun d => (d, searchScore (dist d)))

/-- Method `search` without the threshold step: candidates (topK * 2),
optional WHERE filter (JS truthiness on the expression), order, limit,
score. -/
def searchBase (c : LibSQLCollection) (dist : VectorDocument → ℚ) (topK : ℕ)
    (filterExpr : Option String) : Except String (List (VectorDocument × ℚ)) :=
  match filterExpr with
  | some f =>
    if f ≠ "" then
      match compileWhere (parseFilterExpression f).1 with
      | .error e => .error e
      | .ok p => .ok (orderScoreLimit dist topK ((vectorTopK dist c.rows (topK * 2)).filter p))
    else .ok (orderScoreLimit dist topK (vectorTopK dist c.rows (topK * 2)))
  | none => .ok (orderScoreLimit dist topK (vectorTopK dist c.rows (topK * 2)))

/-- Method `search`: scoring followed by the threshold filter, which
skips results whose score is below the threshold. -/
def LibSQLCollection.search (c : LibSQLCollection) (dist : VectorDocument → ℚ)
    (options : SearchOptions) : Except String (List (VectorDocument × ℚ)) :=
  (searchBase c dist (effectiveTopK options.topK) options.filterExpr).map
    (fun scored =>
      match options.threshold with
      | some th => scored.filter (fun p => !(decide (p.2 < th)))
      | none => scored)

theorem distAscSort_sorted (dist : VectorDocument → ℚ) (rows : List VectorDocument) :
    List.Sorted (fun a b => dist a ≤ dist b) (distAscSort dist rows) := by
  haveI : IsTotal VectorDocument (fun a b => dist a ≤ dist b) := ⟨fun a b => le_total _ _⟩
  haveI : IsTrans VectorDocument (fun a b => dist a ≤ dist b) := ⟨fun a b c => le_trans⟩
  exact List.sorted_insertionSort _ rows

theorem searchScore_antitone (d₁ d₂ : ℚ) (h0 : 0 ≤ d₁) (h : d₁ ≤ d₂) :
    searchScore d₂ ≤ searchScore d₁ := by
  unfold searchScore
  apply one_div_le_one_div_of_le <;> linarith

theorem searchScore_pos (d : ℚ) (h : 0 ≤ d) : 0 < searchScore d := by
  unfold searchScore
  apply div_pos <;> linarith

theorem searchScore_le_one (d : ℚ) (h : 0 ≤ d) : searchScore d ≤ 1 := by
  unfold searchScore
  rw [div_le_one (by linarith)]
  linarith

theorem orderScoreLimit_sorted (dist : VectorDocument → ℚ) (topK : ℕ)
    (rows : List VectorDocument) (hd : ∀ d, 0 ≤ dist d) :
    List.Sorted (fun p q : VectorDocument × ℚ => q.2 ≤ p.2) (orderScoreLimit dist topK rows) := by
  have h1 : List.Sorted (fun a b => dist a ≤ dist b) ((distAscSort dist rows).take topK) :=
    List.Pairwise.sublist (List.take_sublist topK _) (distAscSort_sorted dist rows)
  unfold orderScoreLimit
  exact List.pairwise_map.mpr (h1.imp (fun hab => searchScore_antitone _ _ (hd _) hab))

theorem orderScoreLimit_mem (dist : VectorDocument → ℚ) (topK : ℕ)
    (rows : List VectorDocument) (p : VectorDocument × ℚ)
    (hp : p ∈ orderScoreLimit dist topK rows) : p.2 = searchScore (dist p.1) := by
  unfold orderScoreLimit at hp
  obtain ⟨d, _, he⟩ := List.mem_map.mp hp
  rw [← he]

theorem searchBase_ok_shape (c : LibSQLCollection) (dist : VectorDocument → ℚ) (topK : ℕ)
    (filterExpr : Option String) (scored : List (VectorDocument × ℚ))
    (h : searchBase c dist topK filterExpr = .ok scored) :
    ∃ rows, scored = orderScoreLimit dist topK rows := by
  cases filterExpr with
  | none =>
    simp only [searchBase] at h
    exact ⟨_, by cases h; rfl⟩
  | some f =>
    simp only [searchBase] at h
    by_cases hf : f = ""
    · rw [if_neg (by simp [hf])] at h
      exact ⟨_, by cases h; rfl⟩
    · rw [if_pos hf] at h
      match hcw : compileWhere (parseFilterExpression f).1 with
      | .error e => rw [hcw] at h; cases h
      | .ok p =>
        rw [hcw] at h
        exact ⟨_, by cases h; rfl⟩

/-- Claim C5: dense search returns results in descending score order;
each score is `1 / (1 + distance)` and hence lies in `(0, 1]` and is
antitone in distance (monotone in similarity); and a given threshold
removes exactly the results scoring below it, after scoring. -/
theorem claim_C5 (c : LibSQLCollection) (dist : VectorDocument → ℚ) (options : SearchOptions)
    (res : List (VectorDocument × ℚ))
    (hd : ∀ d, 0 ≤ dist d)
    (hres : c.search dist options = .ok res) :
    List.Sorted (fun p q : VectorDocument × ℚ => q.2 ≤ p.2) res ∧
    (∀ p ∈ res, p.2 = searchScore (dist p.1) ∧ 0 < p.2 ∧ p.2 ≤ 1) ∧
    (∀ d₁ d₂ : ℚ, 0 ≤ d₁ → d₁ ≤ d₂ → searchScore d₂ ≤ searchScore d₁) ∧
    (∀ th, options.threshold = some th → ∀ p ∈ res, th ≤ p.2) ∧
    (∀ th : ℚ,
      c.search dist ⟨options.topK, some th, options.filterExpr⟩ =
        (c.search dist ⟨options.topK, none, options.filterExpr⟩).map
          (fun scored => scored.filter (fun p => !(decide (p.2 < th))))) := by
  unfold LibSQLCollection.search at hres
  match hb : searchBase c dist (effectiveTopK options.topK) options.filterExpr with
  | .error e => rw [hb] at hres; cases hres
  | .ok scored =>
    rw [hb] at hres
    obtain ⟨rows, hshape⟩ := searchBase_ok_shape _ _ _ _ _ hb
    have hsorted : List.Sorted (fun p q : VectorDocument × ℚ => q.2 ≤ p.2) scored :=
      hshape ▸ orderScoreLimit_sorted dist _ rows hd
    have hsub : ∀ p ∈ res, p ∈ scored := by
      intro p hp
      cases hth : options.threshold with
      | none => rw [hth] at hres; cases hres; exact hp
      | some th =>
        rw [hth] at hres
        cases hres
        exact List.mem_of_mem_filter hp
    refine ⟨?_, ?_, fun d₁ d₂ h0 h => searchScore_antitone d₁ d₂ h0 h, ?_, ?_⟩
    · cases hth : options.threshold with
      | none => rw [hth] at hres; cases hres; exact hsorted
      | some th =>
        rw [hth] at hres
        cases hres
        exact List.Pairwise.filter _ hsorted
    · intro p hp
      have hmem := hsub p hp
      have hval : p.2 = searchScore (dist p.1) :=
        orderScoreLimit_mem dist _ rows p (hshape ▸ hmem)
      exact ⟨hval, hval ▸ searchScore_pos _ (hd _), hval ▸ searchScore_le_one _ (hd _)⟩
    · intro th hth p hp
      rw [hth] at hres
      cases hres
      have h2 : ¬ p.2 < th := by simpa using (List.mem_filter.mp hp).2
      exact not_lt.mp h2
    · intro th
      unfold LibSQLCollection.search
      rw [hb]
      rfl

/-- Zero-distance oracle for the search witness. -/
def distZero (_ : VectorDocument) : ℚ := 0

theorem search_collA :
    collA.search distZero ⟨none, none, none⟩ = .ok [(docA, 1)] := by
  norm_num [LibSQLCollection.search, searchBase, orderScoreLimit, vectorTopK, distAscSort,
    searchScore, effectiveTopK, distZero, List.insertionSort, List.orderedInsert, collA,
    Except.map]

theorem claim_C5_witness : searchScore 1 ≤ searchScore 0 :=
  (claim_C5 collA distZero ⟨none, none, none⟩ [(docA, 1)] (fun _ => le_refl 0)
    search_collA).2.2.1 0 1 (le_refl 0) (by norm_num)


/-! ### RRF fusion (methods `computeRanks`, `applyRRF` and the top-id
selection of `hybridSearch` in the LibSQL store)

The two score maps are the per-list results the backends filled in
(`performDenseSearch` / `performSparseSearch`): insertion-ordered
association lists with unique ids, as a JS `Map` guarantees. -/

/-- Stable descending sort by score: JS `sort((a, b) => b[1] - a[1])`
(stable per the ECMAScript specification), modelled by the stable
`List.insertionSort` on the descending relation. -/
def sortByScoreDesc (l : List (String × ℚ)) : List (String × ℚ) :=
  l.insertionSort (fun a b => b.2 ≤ a.2)

/-- Method `computeRanks`: rank = 1-indexed position in the descending
sort. -/
def computeRanks (scores : List (String × ℚ)) : List (String × ℕ) :=
  (sortByScoreDesc scores).enum.map (fun p => (p.2.1, p.1 + 1))

/-- First-occurrence deduplication with a seen set (JS `Set` keeps
insertion order). -/
def dedupFirstAux (seen : List String) : List String → List String
  | [] => []
  | x :: xs =>
    if seen.contains x then dedupFirstAux seen xs
    else x :: dedupFirstAux (x :: seen) xs

/-- Iteration order of `new Set([...denseKeys, ...sparseKeys])`. -/
def dedupFirst (xs : List String) : List String :=
  dedupFirstAux [] xs

/-- Contribution of one ranked list to the fused score: `1 / (k + rank)`
when the id has a rank there, else nothing is added. -/
def rrfContrib (l : List (String × ℚ)) (k : ℚ) (id : String) : ℚ :=
  match (computeRanks l).lookup id with
  | some r => 1 / (k + (r : ℚ))
  | none => 0

/-- Method `applyRRF`: fused score per id over the union of both key
sets, in first-occurrence order. -/
def applyRRF (denseResults sparseResults : List (String × ℚ)) (k : ℚ) :
    List (String × ℚ) :=
  (dedupFirst ((denseResults.map (fun p => p.1)) ++ (sparseResults.map (fun p => p.1)))).map
    (fun id => (id, rrfContrib denseResults k id + rrfContrib sparseResults k id))

/-- Effective RRF constant: JS `options?.rerank?.params?.k || 60`. -/
def effectiveK (k : Option ℚ) : ℚ :=
  match k with
  | none => 60
  | some kv => if kv = 0 then 60 else kv

/-- Top-id selection of method `hybridSearch`: sort the fused map
descending (stable) and keep the first `limit` ids. -/
def hybridTopIds (dense sparse : List (String × ℚ)) (k : ℚ) (limit : ℕ) : List String :=
  ((sortByScoreDesc (applyRRF dense sparse k)).take limit).map (fun p => p.1)

/-- Ranking returned by the LibSQL `hybridSearch` from the two per-list
score maps, with the defaulted options. -/
def libsqlHybridRanking (dense sparse : List (String × ℚ)) (limit : Option ℕ)
    (k : Option ℚ) : List String :=
  hybridTopIds dense sparse (effectiveK k) (effectiveTopK limit)

theorem mem_dedupFirstAux (xs : List String) :
    ∀ (seen : List String) (a : String),
      a ∈ dedupFirstAux seen xs ↔ a ∈ xs ∧ ¬ a ∈ seen := by
  induction xs with
  | nil => intro seen a; simp [dedupFirstAux]
  | cons x xs ih =>
    intro seen a
    unfold dedupFirstAux
    by_cases hseen : seen.contains x = true
    · rw [if_pos hseen]
      rw [ih seen a]
      constructor
      · rintro ⟨h1, h2⟩
        exact ⟨List.mem_cons.mpr (Or.inr h1), h2⟩
      · rintro ⟨h1, h2⟩
        rcases List.mem_cons.mp h1 with h3 | h3
        · subst h3
          exact absurd (by simpa using hseen) h2
        · exact ⟨h3, h2⟩
    · rw [if_neg hseen]
      constructor
      · intro h
        rcases List.mem_cons.mp h with h1 | h1
        · subst h1
          refine ⟨List.mem_cons_self _ _, ?_⟩
          intro hc
          exact hseen (by simpa using hc)
        · obtain ⟨h2, h3⟩ := (ih (x :: seen) a).mp h1
          refine ⟨List.mem_cons.mpr (Or.inr h2), ?_⟩
          intro hc
          exact h3 (List.mem_cons.mpr (Or.inr hc))
      · rintro ⟨h1, h2⟩
        rcases List.mem_cons.mp h1 with h3 | h3
        · exact h3 ▸ List.mem_cons_self _ _
        · by_cases hax : a = x
          · exact hax ▸ List.mem_cons_self _ _
          · refine List.mem_cons.mpr (Or.inr ?_)
            refine (ih (x :: seen) a).mpr ⟨h3, ?_⟩
            intro hc
            rcases List.mem_cons.mp hc with h4 | h4
            · exact hax h4
            · exact h2 h4

theorem mem_dedupFirst (xs : List String) (a : String) : a ∈ dedupFirst xs ↔ a ∈ xs := by
  unfold dedupFirst
  rw [mem_dedupFirstAux]
  simp

theorem lookup_map_pair {β : Type} (xs : List String) (f : String → β) (a : String) :
    (xs.map (fun id => (id, f id))).lookup a = if a ∈ xs then some (f a) else none := by
  induction xs with
  | nil => simp
  | cons x xs ih =>
    by_cases hax : a = x
    · subst hax
      simp [List.lookup]
    · have hbeq : (a == x) = false := beq_eq_false_iff_ne.mpr hax
      simp [List.lookup, hbeq, ih, hax]

theorem lookup_eq_none_of_keys {β : Type} (l : List (String × β)) (a : String)
    (h : ∀ p ∈ l, p.1 ≠ a) : l.lookup a = none := by
  induction l with
  | nil => rfl
  | cons x xs ih =>
    obtain ⟨kx, vx⟩ := x
    have hx : kx ≠ a := h (kx, vx) (List.mem_cons_self _ _)
    have hbeq : (a == kx) = false := beq_eq_false_iff_ne.mpr (fun hc => hx hc.symm)
    simp only [List.lookup, hbeq]
    exact ih (fun p hp => h p (List.mem_cons.mpr (Or.inr hp)))

theorem computeRanks_keys (scores : List (String × ℚ)) :
    (computeRanks scores).map Prod.fst = (sortByScoreDesc scores).map Prod.fst := by
  unfold computeRanks
  rw [List.map_map]
  have h1 : (Prod.fst ∘ fun p : ℕ × (String × ℚ) => (p.2.1, p.1 + 1)) =
      (Prod.fst ∘ Prod.snd) := rfl
  rw [h1, ← List.map_map, List.enum_map_snd]

theorem sortByScoreDesc_perm (l : List (String × ℚ)) : List.Perm (sortByScoreDesc l) l :=
  List.perm_insertionSort _ l

theorem sortByScoreDesc_sorted (l : List (String × ℚ)) :
    List.Sorted (fun a b : String × ℚ => b.2 ≤ a.2) (sortByScoreDesc l) := by
  haveI : IsTotal (String × ℚ) (fun a b : String × ℚ => b.2 ≤ a.2) :=
    ⟨fun a b => (le_total b.2 a.2).imp id id⟩
  haveI : IsTrans (String × ℚ) (fun a b : String × ℚ => b.2 ≤ a.2) :=
    ⟨fun a b c hab hbc => le_trans hbc hab⟩
  exact List.sorted_insertionSort _ l

theorem rrfContrib_of_not_mem (l : List (String × ℚ)) (k : ℚ) (id : String)
    (h : id ∉ l.map Prod.fst) : rrfContrib l k id = 0 := by
  have hperm : List.Perm ((sortByScoreDesc l).map Prod.fst) (l.map Prod.fst) :=
    (sortByScoreDesc_perm l).map Prod.fst
  have hnot : id ∉ (sortByScoreDesc l).map Prod.fst := fun hc => h (hperm.mem_iff.mp hc)
  have hnone : (computeRanks l).lookup id = none := by
    apply lookup_eq_none_of_keys
    intro p hp he
    apply hnot
    rw [← computeRanks_keys]
    rw [← he]
    exact List.mem_map_of_mem Prod.fst hp
  unfold rrfContrib
  rw [hnone]

theorem lookup_enumFrom_ranks (xs : List (String × ℚ)) :
    ∀ (n : ℕ), (xs.map Prod.fst).Nodup →
      ∀ i (h : i < xs.length),
        ((xs.enumFrom n).map (fun p => (p.2.1, p.1 + 1))).lookup (xs.get ⟨i, h⟩).1 =
          some (n + i + 1) := by
  induction xs with
  | nil => intro n _ i h; cases h
  | cons x xs ih =>
    intro n hnd i h
    match i with
    | 0 =>
      simp [List.enumFrom, List.lookup]
    | i' + 1 =>
      have hget : ((x :: xs).get ⟨i' + 1, h⟩) = xs.get ⟨i', Nat.lt_of_succ_lt_succ h⟩ := rfl
      rw [hget]
      have h0 : x.1 ∉ xs.map Prod.fst ∧ (xs.map Prod.fst).Nodup := by
        rw [List.map_cons] at hnd
        exact List.nodup_cons.mp hnd
      have hne : (xs.get ⟨i', Nat.lt_of_succ_lt_succ h⟩).1 ≠ x.1 := by
        intro hc
        apply h0.1
        rw [← hc]
        exact List.mem_map_of_mem Prod.fst (xs.get_mem _ _)
      have hbeq : ((xs.get ⟨i', Nat.lt_of_succ_lt_succ h⟩).1 == x.1) = false :=
        beq_eq_false_iff_ne.mpr hne
      have hrec := ih (n + 1) h0.2 i' (Nat.lt_of_succ_lt_succ h)
      simp only [List.enumFrom, List.map_cons, List.lookup, hbeq]
      rw [hrec]
      congr 1
      omega

theorem computeRanks_get (scores : List (String × ℚ))
    (hnd : (scores.map Prod.fst).Nodup) :
    ∀ i (h : i < (sortByScoreDesc scores).length),
      (computeRanks scores).lookup ((sortByScoreDesc scores).get ⟨i, h⟩).1 = some (i + 1) := by
  intro i h
  have hnd2 : ((sortByScoreDesc scores).map Prod.fst).Nodup :=
    (((sortByScoreDesc_perm scores).map Prod.fst).nodup_iff).mpr hnd
  have := lookup_enumFrom_ranks (sortByScoreDesc scores) 0 hnd2 i h
  simpa [computeRanks, List.enum] using this

/-- Claim C3: the fused score of a candidate id equals the sum, over the
ranked lists (dense, sparse) containing the id, of `1 / (k + rank)`,
where ranks are the 1-indexed positions in the stable descending
per-list sort (a descending-sorted permutation of the list) and ids
absent from a list contribute nothing there; `k` defaults to 60; and the
returned ranking is the first `limit` ids of the stable descending sort
of the fused map, so every returned id scores at least as high as every
id left out, with ties kept in stable map order. -/
theorem claim_C3 (dense sparse : List (String × ℚ)) (kOpt : Option ℚ) (limitOpt : Option ℕ) :
    (∀ id ∈ dedupFirst ((dense.map Prod.fst) ++ (sparse.map Prod.fst)),
       (applyRRF dense sparse (effectiveK kOpt)).lookup id =
         some (rrfContrib dense (effectiveK kOpt) id +
           rrfContrib sparse (effectiveK kOpt) id)) ∧
    (∀ (l : List (String × ℚ)) (k : ℚ) (id : String),
       id ∉ l.map Prod.fst → rrfContrib l k id = 0) ∧
    (∀ l : List (String × ℚ),
       List.Perm (sortByScoreDesc l) l ∧
       List.Sorted (fun a b : String × ℚ => b.2 ≤ a.2) (sortByScoreDesc l) ∧
       ((l.map Prod.fst).Nodup →
         ∀ i (h : i < (sortByScoreDesc l).length),
           (computeRanks l).lookup ((sortByScoreDesc l).get ⟨i, h⟩).1 = some (i + 1))) ∧
    effectiveK none = 60 ∧
    libsqlHybridRanking dense sparse limitOpt kOpt =
      ((sortByScoreDesc (applyRRF dense sparse (effectiveK kOpt))).take
        (effectiveTopK limitOpt)).map (fun p => p.1) ∧
    (∀ a b : String × ℚ, a.2 = b.2 →
       List.Sublist [a, b] (applyRRF dense sparse (effectiveK kOpt)) →
       List.Sublist [a, b] (sortByScoreDesc (applyRRF dense sparse (effectiveK kOpt)))) ∧
    (∀ p ∈ (sortByScoreDesc (applyRRF dense sparse (effectiveK kOpt))).take
        (effectiveTopK limitOpt),
       ∀ q ∈ (sortByScoreDesc (applyRRF dense sparse (effectiveK kOpt))).drop
        (effectiveTopK limitOpt),
       q.2 ≤ p.2) := by
  refine ⟨?_, fun l k id h => rrfContrib_of_not_mem l k id h, ?_, rfl, rfl, ?_, ?_⟩
  · intro id hid
    unfold applyRRF
    rw [lookup_map_pair, if_pos hid]
  · intro l
    exact ⟨sortByScoreDesc_perm l, sortByScoreDesc_sorted l,
      fun hnd i h => computeRanks_get l hnd i h⟩
  · intro a b heq hsub
    exact List.pair_sublist_insertionSort (le_of_eq heq.symm) hsub
  · intro p hp q hq
    exact (sortByScoreDesc_sorted (applyRRF dense sparse (effectiveK kOpt))).rel_of_mem_take_of_mem_drop hp hq

/-- Score maps used by the RRF witness. -/
def rrfDenseW : List (String × ℚ) := [("a", 1), ("b", 1/2)]

def rrfSparseW : List (String × ℚ) := [("b", 5)]

theorem claim_C3_witness :
    (applyRRF rrfDenseW rrfSparseW (effectiveK none)).lookup "b" =
      some (rrfContrib rrfDenseW (effectiveK none) "b" +
        rrfContrib rrfSparseW (effectiveK none) "b") :=
  (claim_C3 rrfDenseW rrfSparseW none none).1 "b" (by decide)


/-! ### QdrantVectorDatabase (qdrant-vectordb.ts) -/

/-- Match kind of a parsed Qdrant filter condition. -/
inductive QdrantMatch where
  | keyword (value : String)
  | anyOf (values : List String)
deriving DecidableEq

/-- Single field condition emitted by the Qdrant filter parser. -/
structure QdrantCondition where
  key : String
  matching : QdrantMatch
deriving DecidableEq

/-- Strip every single or double quote (JS `replace` with a global
quote class). -/
def stripQuotes (s : String) : String :=
  String.mk (s.toList.filter (fun c => c != '\'' && c != '"'))

/-- Attempt the Qdrant `==` regex at the start of the character list:
field, optional whitespace, `==`, optional whitespace, optional quote,
a nonempty run of non-quote characters, optional quote. -/
def tryEqAtQdrant (cs : List Char) : Option (String × String) :=
  let fw := takeWordRun cs
  if fw.1.isEmpty then none else
  let w1 := takeWsRun fw.2
  match w1.2 with
  | '=' :: '=' :: r3 =>
    let w2 := takeWsRun r3
    let r4 :=
      match w2.2 with
      | c :: rest => if c == '\'' || c == '"' then rest else c :: rest
      | [] => []
    let run := r4.takeWhile (fun c => c != '\'' && c != '"')
    if run.isEmpty then none else some (String.mk fw.1, String.mk run)
  | _ => none

/-- Scan for the first position where the Qdrant `==` pattern matches. -/
def scanEqQdrant : List Char → Option (String × String)
  | [] => none
  | c :: cs =>
    match tryEqAtQdrant (c :: cs) with
    | some r => some r
    | none => scanEqQdrant cs

/-- Qdrant method `parseFilterExpression`: `in` branch, else-if `==`
branch, otherwise warn and return no filter (JS `undefined`); the flag
records the warning. -/
def qdrantParseFilterExpression (expr : String) : Option QdrantCondition × Bool :=
  if containsSub expr " in " then
    match scanIn expr.toList with
    | some fi =>
      (some ⟨fi.1, .anyOf ((fi.2.toList.splitOnP (fun c => c == ',')).map
        (fun g => stripQuotes (strTrim (String.mk g))))⟩, false)
    | none => (none, true)
  else if containsSub expr "==" then
    match scanEqQdrant expr.toList with
    | some fe => (some ⟨fe.1, .keyword (strTrim fe.2)⟩, false)
    | none => (none, true)
  else (none, true)

/-- Payload field of a stored point as text, for filter evaluation. -/
def qdrantPayloadField (d : VectorDocument) : String → Option String
  | "content" => some d.content
  | "relativePath" => some d.relativePath
  | "startLine" => some (toString d.startLine)
  | "endLine" => some (toString d.endLine)
  | "fileExtension" => some d.fileExtension
  | "metadata" => some d.metadata
  | _ => none

/-- Evaluate one parsed condition against a stored point. -/
def evalQdrantCondition (c : QdrantCondition) (d : VectorDocument) : Bool :=
  match qdrantPayloadField d c.key with
  | none => false
  | some v =>
    match c.matching with
    | .keyword value => v == value
    | .anyOf values => values.contains v

/-- Qdrant method `query` (points scroll): a non-blank filter expression
is parsed; a parse failure leaves the scroll unfiltered; then
`limit || 100`. The per-point payload projection of the source is
identity-preserving per point and omitted. -/
def qdrantScroll (points : List VectorDocument) (filter : String) (limit : Option ℕ) :
    List VectorDocument :=
  let selected :=
    if strTrim filter ≠ "" then
      match (qdrantParseFilterExpression filter).1 with
      | some cond => points.filter (fun d => evalQdrantCondition cond d)
      | none => points
    else points
  selected.take (effectiveLimit limit)

/-! ### Claim C1: unparseable filters -/

/-- Documents and collection for the unparseable-filter counterexample. -/
def cxDocA : VectorDocument := ⟨"a", [], "", "a.ts", 0, 0, ".ts", ""⟩

def cxDocB : VectorDocument := ⟨"b", [], "", "b.ts", 0, 0, ".ts", ""⟩

def cxColl : LibSQLCollection := ⟨0, false, [cxDocA, cxDocB]⟩

/-- A filter outside the supported grammar (the `!=` operator is not
recognised by the parser). -/
def cxFilter : String := "relative_path != \x27a.ts\x27"

/-- Claim C1 counterexample: on the LibSQL store, an unrecognised
filter does produce the warning, but the expression is passed through
as a SQL WHERE clause, so the query result differs from the unfiltered
call; and the malformed filter `@@@` makes the query raise a SQL error
instead of returning unfiltered results. -/
theorem claim_C1_counterexample :
    queryWarns cxFilter = true ∧
    LibSQLCollection.query cxColl cxFilter ["id"] none = .ok [[("id", "b")]] ∧
    LibSQLCollection.query cxColl "" ["id"] none = .ok [[("id", "a")], [("id", "b")]] ∧
    LibSQLCollection.query cxColl "@@@" ["id"] none =
      .error ("SQL syntax error in WHERE clause: @@@") := by
  decide

/-- Claim C1 amended: a filter expression outside the supported grammar
produces the warning in both stores, but only the Qdrant store then
returns unfiltered results (its parser yields no filter, so the scroll
equals the empty-filter scroll). The LibSQL store instead returns the
expression verbatim as the SQL WHERE fragment, so its results can be
filtered by that expression or the call can raise a SQL error, as the
counterexample shows. -/
theorem claim_C1_amended :
    (∀ expr : String, (parseFilterExpression expr).2 = true →
       (parseFilterExpression expr).1 = expr ∧
       (strTrim expr ≠ "" → queryWarns expr = true)) ∧
    (∀ (expr : String) (points : List VectorDocument) (limit : Option ℕ),
       (qdrantParseFilterExpression expr).1 = none →
       qdrantScroll points expr limit = qdrantScroll points "" limit) := by
  constructor
  · intro expr hw
    have heqb : ∀ e2 : String,
        (parseFilterEqBranch e2).2 = true → (parseFilterEqBranch e2).1 = e2 := by
      intro e2 hw2
      unfold parseFilterEqBranch at hw2 ⊢
      by_cases h2 : containsSub e2 "==" = true
      · rw [if_pos h2] at hw2 ⊢
        match he : scanEq e2.toList with
        | some fe =>
          rw [he] at hw2
          cases hw2
        | none => rfl
      · rw [if_neg h2]
    have hpass : (parseFilterExpression expr).1 = expr := by
      unfold parseFilterExpression at hw ⊢
      by_cases h1 : containsSub expr " in " = true
      · rw [if_pos h1] at hw ⊢
        match hs : scanIn expr.toList with
        | some fi =>
          rw [hs] at hw
          cases hw
        | none =>
          rw [hs] at hw
          exact heqb expr hw
      · rw [if_neg h1] at hw ⊢
        exact heqb expr hw
    refine ⟨hpass, ?_⟩
    intro hne
    unfold queryWarns
    rw [hw]
    simp [hne]
  · intro expr points limit hnone
    unfold qdrantScroll
    by_cases h : strTrim expr ≠ ""
    · rw [if_pos h, hnone]
      have hblank : ¬ strTrim "" ≠ "" := by simp [strTrim, trimChars]
      rw [if_neg hblank]
    · rw [if_neg h]
      have hblank : ¬ strTrim "" ≠ "" := by simp [strTrim, trimChars]
      rw [if_neg hblank]

theorem claim_C1_amended_witness :
    qdrantScroll [cxDocA] "@@@" none = qdrantScroll [cxDocA] "" none :=
  claim_C1_amended.2 "@@@" [cxDocA] none (by decide)

/-! ### Claim C4: hybrid-search fallback to dense-only search -/

/-- Hybrid search request (types.ts `HybridSearchRequest`): data is a
dense vector or a query text. -/
structure HybridSearchRequest where
  annsField : String
  data : (List ℚ) ⊕ String
  limit : Option ℕ

/-- Qdrant method `hybridSearch` with the two backend calls abstracted:
`denseSearch` stands for the dense-only `this.search` and `fusedSearch`
for the prefetch + RRF `points.query`. -/
def qdrantHybridSearch {ρ : Type} (bm25 : SimpleBM25) (sqrtFn : ℚ → ℚ)
    (denseSearch : List ℚ → ℕ → Option String → List ρ)
    (fusedSearch : List ℚ → SparseVector → ℕ → Option String → List ρ)
    (searchRequests : List HybridSearchRequest) (limit : Option ℕ)
    (filterExpr : Option String) : Except String (List ρ) :=
  match searchRequests.find? (fun r => r.data.isLeft),
        searchRequests.find? (fun r => r.data.isRight) with
  | some dreq, some treq =>
    let denseQuery := dreq.data.getLeft?.getD []
    let textQuery := treq.data.getRight?.getD ""
    let sparseQuery :=
      if bm25.trained then bm25.generateRun sqrtFn textQuery emptySparseConfig
      else ⟨[], []⟩
    if sparseQuery.indices.length = 0 ∨ sparseQuery.values.length = 0 ∨
        sparseQuery.indices.length ≠ sparseQuery.values.length then
      .ok (denseSearch denseQuery (effectiveTopK limit) filterExpr)
    else if sparseQuery.values.any (fun v => decide (v ≤ 0)) then
      .ok (denseSearch denseQuery (effectiveTopK limit) filterExpr)
    else
      .ok (fusedSearch denseQuery sparseQuery (effectiveTopK limit) filterExpr)
  | _, _ =>
    .error "Hybrid search requires one dense vector request and one text request."

/-- JS `Map.set`: replace the entry in place, or append a new one. -/
def assocSet {β : Type} (l : List (String × β)) (key : String) (v : β) :
    List (String × β) :=
  if l.any (fun p => p.1 == key) then
    l.map (fun p => if p.1 == key then (key, v) else p)
  else l ++ [(key, v)]

/-- A row of the LibSQL `documents` table with a sparse vector
(`WHERE sparse_indices IS NOT NULL`, JSON columns parsed). -/
structure SparseRow where
  id : String
  indices : List ℕ
  values : List ℚ

/-- Dot-product loop of `performSparseSearch`: over the stored pairs,
add `values[i] * queryVal` whenever the stored index has a value in the
query map. -/
def sparseDot (queryMap : List (ℕ × ℚ)) (pairs : List (ℕ × ℚ)) : ℚ :=
  pairs.foldl (fun score p =>
    match queryMap.lookup p.1 with
    | some qv => score + p.2 * qv
    | none => score) 0

/-- Per-row body of `performSparseSearch`: record the score into the
results map only when `score > 0`. -/
def sparseScoreStep (queryMap : List (ℕ × ℚ)) (acc : List (String × ℚ))
    (row : SparseRow) : List (String × ℚ) :=
  if 0 < sparseDot queryMap (row.indices.zip row.values) then
    assocSet acc row.id (sparseDot queryMap (row.indices.zip row.values))
  else acc

/-- LibSQL method `performSparseSearch`: skipped (results untouched)
when the BM25 generator is missing or untrained; otherwise generate the
query sparse vector, build the query map from its index/value pairs and
score every stored sparse row, keeping only strictly positive scores.
A total function: the source method never throws. -/
def performSparseSearch (bm25 : Option SimpleBM25) (sqrtFn : ℚ → ℚ)
    (queryText : String) (rows : List SparseRow)
    (results : List (String × ℚ)) : List (String × ℚ) :=
  match bm25 with
  | none => results
  | some m =>
    if m.trained then
      rows.foldl
        (sparseScoreStep
          ((m.generateRun sqrtFn queryText emptySparseConfig).indices.zip
            (m.generateRun sqrtFn queryText emptySparseConfig).values))
        results
    else results

theorem sparseDot_nilQuery (pairs : List (ℕ × ℚ)) : sparseDot [] pairs = 0 := by
  have h : ∀ (ps : List (ℕ × ℚ)) (a : ℚ), List.foldl (fun score p =>
      match (([] : List (ℕ × ℚ)).lookup p.1 : Option ℚ) with
      | some qv => score + p.2 * qv
      | none => score) a ps = a := by
    intro ps
    induction ps with
    | nil => intro a; rfl
    | cons x t ih =>
      intro a
      rw [List.foldl_cons]
      exact ih a
  exact h pairs 0

theorem sparseScoreStep_nilQuery (acc : List (String × ℚ)) (row : SparseRow) :
    sparseScoreStep [] acc row = acc := by
  unfold sparseScoreStep
  rw [sparseDot_nilQuery]
  rw [if_neg (lt_irrefl (0 : ℚ))]

theorem foldl_sparseScoreStep_nilQuery (rows : List SparseRow) :
    ∀ results : List (String × ℚ),
      rows.foldl (sparseScoreStep []) results = results := by
  induction rows with
  | nil => intro r; rfl
  | cons x t ih =>
    intro r
    rw [List.foldl_cons, sparseScoreStep_nilQuery]
    exact ih r

/-- A no-terms sparse query (empty indices) leaves the results map of
`performSparseSearch` untouched: every stored row scores 0, and 0 is
not `> 0`. -/
theorem performSparseSearch_noTerms (m : SimpleBM25) (sqrtFn : ℚ → ℚ)
    (queryText : String) (rows : List SparseRow) (results : List (String × ℚ))
    (hempty : (m.generateRun sqrtFn queryText emptySparseConfig).indices = []) :
    performSparseSearch (some m) sqrtFn queryText rows results = results := by
  show (if m.trained = true then
      List.foldl (sparseScoreStep
        ((m.generateRun sqrtFn queryText emptySparseConfig).indices.zip
          (m.generateRun sqrtFn queryText emptySparseConfig).values)) results rows
    else results) = results
  by_cases ht : m.trained = true
  · rw [if_pos ht, hempty]
    exact foldl_sparseScoreStep_nilQuery rows results
  · rw [if_neg ht]

theorem performSparseSearch_skipped (bm25 : Option SimpleBM25) (sqrtFn : ℚ → ℚ)
    (queryText : String) (rows : List SparseRow) (results : List (String × ℚ))
    (hskip : ∀ m, bm25 = some m → m.trained = false) :
    performSparseSearch bm25 sqrtFn queryText rows results = results := by
  match bm25 with
  | none => rfl
  | some m =>
    have hfalse := hskip m rfl
    show (if m.trained = true then
        List.foldl (sparseScoreStep
          ((m.generateRun sqrtFn queryText emptySparseConfig).indices.zip
            (m.generateRun sqrtFn queryText emptySparseConfig).values)) results rows
      else results) = results
    rw [hfalse]
    rfl

theorem dedupFirstAux_nodup_eq (xs : List String) :
    ∀ seen : List String, xs.Nodup → (∀ a ∈ xs, a ∉ seen) →
      dedupFirstAux seen xs = xs := by
  induction xs with
  | nil => intro seen _ _; rfl
  | cons x t ih =>
    intro seen hnd hdisj
    unfold dedupFirstAux
    have hx : ¬ seen.contains x = true := by
      intro hc
      exact hdisj x (List.mem_cons_self x t) (by simpa using hc)
    rw [if_neg hx]
    congr 1
    apply ih (x :: seen) (List.Nodup.of_cons hnd)
    intro a ha hc
    rcases List.mem_cons.mp hc with h | h
    · exact (List.nodup_cons.mp hnd).1 (h ▸ ha)
    · exact hdisj a (List.mem_cons.mpr (Or.inr ha)) h

theorem rrfContrib_nil (k : ℚ) (id : String) : rrfContrib [] k id = 0 := by
  unfold rrfContrib computeRanks sortByScoreDesc
  rfl

/-- With an empty sparse map, the fused map is the dense key list paired
with the dense contribution alone. -/
theorem applyRRF_nil_sparse (dense : List (String × ℚ)) (k : ℚ)
    (hnd : (dense.map (fun p => p.1)).Nodup) :
    applyRRF dense [] k =
      (dense.map (fun p => p.1)).map (fun id => (id, rrfContrib dense k id)) := by
  unfold applyRRF
  rw [List.map_nil, List.append_nil]
  unfold dedupFirst
  rw [dedupFirstAux_nodup_eq (dense.map (fun p => p.1)) [] hnd
    (by intro a _ hc; exact absurd hc (List.not_mem_nil a))]
  apply List.map_congr_left
  intro id _
  rw [rrfContrib_nil, add_zero]

/-- The dense contribution of the id at sorted position `i` is
`1 / (k + (i + 1))`. -/
theorem rrfContrib_getElem (dense : List (String × ℚ)) (k : ℚ)
    (hnd : (dense.map Prod.fst).Nodup) (i : ℕ)
    (h : i < (sortByScoreDesc dense).length) :
    rrfContrib dense k ((sortByScoreDesc dense)[i].1) =
      1 / (k + ((i + 1 : ℕ) : ℚ)) := by
  have hc := computeRanks_get dense hnd i h
  unfold rrfContrib
  rw [List.get_eq_getElem] at hc
  rw [hc]

theorem rrfCast_pos (k : ℚ) (hk : 0 < k) (i : ℕ) : 0 < k + ((i + 1 : ℕ) : ℚ) := by
  have : (0 : ℚ) ≤ ((i + 1 : ℕ) : ℚ) := Nat.cast_nonneg _
  linarith

theorem rrfCast_lt (k : ℚ) (i j : ℕ) (hij : i < j) :
    k + ((i + 1 : ℕ) : ℚ) < k + ((j + 1 : ℕ) : ℚ) := by
  have : ((i + 1 : ℕ) : ℚ) < ((j + 1 : ℕ) : ℚ) := by
    exact_mod_cast Nat.succ_lt_succ hij
  linarith

/-- The dense-only fused list, indexed along the dense sort, is sorted
by descending score: the contribution `1 / (k + rank)` strictly
decreases in the rank. -/
theorem rrfMap_sorted (dense : List (String × ℚ)) (k : ℚ) (hk : 0 < k)
    (hnd : (dense.map Prod.fst).Nodup) :
    List.Sorted (fun a b : String × ℚ => b.2 ≤ a.2)
      (((sortByScoreDesc dense).map Prod.fst).map
        (fun id => (id, rrfContrib dense k id))) := by
  show List.Pairwise _ _
  apply List.pairwise_iff_getElem.mpr
  intro i j hi hj hij
  simp only [List.getElem_map]
  have hi2 : i < (sortByScoreDesc dense).length := by simpa using hi
  have hj2 : j < (sortByScoreDesc dense).length := by simpa using hj
  show rrfContrib dense k ((sortByScoreDesc dense)[j].1) ≤
    rrfContrib dense k ((sortByScoreDesc dense)[i].1)
  rw [rrfContrib_getElem dense k hnd i hi2, rrfContrib_getElem dense k hnd j hj2]
  exact one_div_le_one_div_of_le (rrfCast_pos k hk i) (le_of_lt (rrfCast_lt k i j hij))

/-- The dense-only fused scores are pairwise distinct. -/
theorem rrfMap_snd_nodup (dense : List (String × ℚ)) (k : ℚ) (hk : 0 < k)
    (hnd : (dense.map Prod.fst).Nodup) :
    ((((sortByScoreDesc dense).map Prod.fst).map
        (fun id => (id, rrfContrib dense k id))).map Prod.snd).Nodup := by
  show List.Pairwise _ _
  apply List.pairwise_iff_getElem.mpr
  intro i j hi hj hij
  simp only [List.getElem_map]
  have hi2 : i < (sortByScoreDesc dense).length := by simpa using hi
  have hj2 : j < (sortByScoreDesc dense).length := by simpa using hj
  show rrfContrib dense k ((sortByScoreDesc dense)[i].1) ≠
    rrfContrib dense k ((sortByScoreDesc dense)[j].1)
  rw [rrfContrib_getElem dense k hnd i hi2, rrfContrib_getElem dense k hnd j hj2]
  exact ne_of_gt (one_div_lt_one_div_of_lt (rrfCast_pos k hk i) (rrfCast_lt k i j hij))

/-- Two descending-sorted lists that are permutations of each other and
have pairwise-distinct scores are equal. -/
theorem sorted_perm_eq_of_nodup_snd (l₁ : List (String × ℚ)) :
    ∀ l₂ : List (String × ℚ), List.Perm l₁ l₂ →
      List.Sorted (fun a b : String × ℚ => b.2 ≤ a.2) l₁ →
      List.Sorted (fun a b : String × ℚ => b.2 ≤ a.2) l₂ →
      (l₁.map Prod.snd).Nodup → l₁ = l₂ := by
  induction l₁ with
  | nil =>
    intro l₂ hp _ _ _
    exact hp.nil_eq
  | cons a t₁ ih =>
    intro l₂ hp h₁ h₂ hnd
    match l₂ with
    | [] => exact absurd hp.eq_nil (List.cons_ne_nil a t₁)
    | b :: t₂ =>
      by_cases hab : a = b
      · subst hab
        have htail : List.Perm t₁ t₂ := hp.cons_inv
        have hndt : (t₁.map Prod.snd).Nodup := by
          rw [List.map_cons] at hnd
          exact hnd.of_cons
        rw [ih t₂ htail h₁.of_cons h₂.of_cons hndt]
      · have hbmem : b ∈ a :: t₁ := hp.symm.subset (List.mem_cons_self b t₂)
        have hamem : a ∈ b :: t₂ := hp.subset (List.mem_cons_self a t₁)
        have hb1 : b ∈ t₁ := by
          rcases List.mem_cons.mp hbmem with h | h
          · exact absurd h.symm hab
          · exact h
        have ha2 : a ∈ t₂ := by
          rcases List.mem_cons.mp hamem with h | h
          · exact absurd h hab
          · exact h
        have hba : b.2 ≤ a.2 := List.rel_of_sorted_cons h₁ b hb1
        have hab2 : a.2 ≤ b.2 := List.rel_of_sorted_cons h₂ a ha2
        have heq : a.2 = b.2 := le_antisymm hab2 hba
        exact absurd
          (List.inj_on_of_nodup_map hnd (List.mem_cons_self a t₁) hbmem heq) hab

/-- With an empty sparse map (skipped or no-terms sparse search), the
top-id selection of `hybridSearch` is exactly the dense candidates
sorted by descending dense score, truncated to the limit — the
dense-only ranking. -/
theorem hybridTopIds_nil_sparse (dense : List (String × ℚ)) (k : ℚ) (limit : ℕ)
    (hk : 0 < k) (hnd : (dense.map Prod.fst).Nodup) :
    hybridTopIds dense [] k limit =
      ((sortByScoreDesc dense).take limit).map (fun p => p.1) := by
  have hperm1 : List.Perm (sortByScoreDesc (applyRRF dense [] k))
      (applyRRF dense [] k) := sortByScoreDesc_perm _
  have hperm2 : List.Perm (applyRRF dense [] k)
      (((sortByScoreDesc dense).map Prod.fst).map
        (fun id => (id, rrfContrib dense k id))) := by
    rw [applyRRF_nil_sparse dense k hnd]
    exact (((sortByScoreDesc_perm dense).map Prod.fst).symm).map
      (fun id => (id, rrfContrib dense k id))
  have hperm := hperm1.trans hperm2
  have hM : sortByScoreDesc (applyRRF dense [] k) =
      ((sortByScoreDesc dense).map Prod.fst).map
        (fun id => (id, rrfContrib dense k id)) := by
    apply sorted_perm_eq_of_nodup_snd _ _ hperm (sortByScoreDesc_sorted _)
      (rrfMap_sorted dense k hk hnd)
    exact ((hperm.map Prod.snd).nodup_iff).mpr (rrfMap_snd_nodup dense k hk hnd)
  unfold hybridTopIds
  rw [hM, ← List.map_take, ← List.map_take, List.map_map, List.map_map]
  apply List.map_congr_left
  intro p _
  rfl

/-- Claim C4: the hybrid-search fallback to dense-only search, on both
adapters. Qdrant: whenever the sparse query generated for the text
request yields no terms (empty indices, in particular for an untrained
model), or fails the positivity validation (some value ≤ 0),
`hybridSearch` returns exactly the dense-only search result under the
same limit and filter, with no error raised. LibSQL: a no-terms sparse
query — and likewise a missing or untrained BM25 generator — leaves the
sparse score map of `performSparseSearch` empty (the method is total,
so no error is raised), and `hybridSearch` over a dense candidate map
and an empty sparse map returns exactly the dense candidates sorted by
descending dense score truncated to the same limit, which is the
dense-only search ranking over those candidates. -/
theorem claim_C4 (ρ : Type) (bm25 : SimpleBM25) (sqrtFn : ℚ → ℚ)
    (denseSearch : List ℚ → ℕ → Option String → List ρ)
    (fusedSearch : List ℚ → SparseVector → ℕ → Option String → List ρ)
    (searchRequests : List HybridSearchRequest) (limit : Option ℕ)
    (filterExpr : Option String) (dreq treq : HybridSearchRequest)
    (hd : searchRequests.find? (fun r => r.data.isLeft) = some dreq)
    (ht : searchRequests.find? (fun r => r.data.isRight) = some treq)
    (hfall :
      ((if bm25.trained then
          bm25.generateRun sqrtFn (treq.data.getRight?.getD "") emptySparseConfig
        else ⟨[], []⟩) : SparseVector).indices = [] ∨
      ∃ v ∈ ((if bm25.trained then
          bm25.generateRun sqrtFn (treq.data.getRight?.getD "") emptySparseConfig
        else ⟨[], []⟩) : SparseVector).values, v ≤ 0) :
    (qdrantHybridSearch bm25 sqrtFn denseSearch fusedSearch searchRequests limit filterExpr =
      .ok (denseSearch (dreq.data.getLeft?.getD []) (effectiveTopK limit) filterExpr)) ∧
    (∀ (m : SimpleBM25) (sf : ℚ → ℚ) (queryText : String) (rows : List SparseRow)
       (results : List (String × ℚ)),
       (m.generateRun sf queryText emptySparseConfig).indices = [] →
       performSparseSearch (some m) sf queryText rows results = results) ∧
    (∀ (mo : Option SimpleBM25) (sf : ℚ → ℚ) (queryText : String)
       (rows : List SparseRow) (results : List (String × ℚ)),
       (∀ m, mo = some m → m.trained = false) →
       performSparseSearch mo sf queryText rows results = results) ∧
    (∀ (dense : List (String × ℚ)) (limitOpt : Option ℕ) (kOpt : Option ℚ),
       0 < effectiveK kOpt → (dense.map Prod.fst).Nodup →
       libsqlHybridRanking dense [] limitOpt kOpt =
         ((sortByScoreDesc dense).take (effectiveTopK limitOpt)).map (fun p => p.1)) := by
  refine ⟨?_, fun m sf q rows results he =>
      performSparseSearch_noTerms m sf q rows results he,
    fun mo sf q rows results hs =>
      performSparseSearch_skipped mo sf q rows results hs,
    fun dense limitOpt kOpt hk hnd =>
      hybridTopIds_nil_sparse dense (effectiveK kOpt) (effectiveTopK limitOpt) hk hnd⟩
  have key : ∀ (sq : SparseVector) (a b : Except String (List ρ)),
      (sq.indices = [] ∨ ∃ v ∈ sq.values, v ≤ 0) →
      (if sq.indices.length = 0 ∨ sq.values.length = 0 ∨
          sq.indices.length ≠ sq.values.length then a
       else if sq.values.any (fun v => decide (v ≤ 0)) then a else b) = a := by
    intro sq a b h
    rcases h with hempty | hneg
    · rw [if_pos (Or.inl (by rw [hempty]; rfl))]
    · by_cases h1 : sq.indices.length = 0 ∨ sq.values.length = 0 ∨
          sq.indices.length ≠ sq.values.length
      · rw [if_pos h1]
      · rw [if_neg h1]
        have h2 : sq.values.any (fun v => decide (v ≤ 0)) = true := by
          obtain ⟨v, hv, hvle⟩ := hneg
          exact List.any_eq_true.mpr ⟨v, hv, by simpa using hvle⟩
        rw [if_pos h2]
  simp only [qdrantHybridSearch, hd, ht]
  exact key _ _ _ hfall

/-- Untrained model and request pair for the fallback witness. -/
def untrainedBM25 : SimpleBM25 := ⟨6/5, 3/4, 2, [], [], [], 0, false⟩

def reqDenseW : HybridSearchRequest := ⟨"dense", Sum.inl [1], none⟩

def reqTextW : HybridSearchRequest := ⟨"sparse", Sum.inr "query", none⟩

theorem claim_C4_witness :
    qdrantHybridSearch untrainedBM25 (fun x => x) (fun _ _ _ => ([] : List ℕ))
      (fun _ _ _ _ => []) [reqDenseW, reqTextW] none none = .ok [] :=
  (claim_C4 ℕ untrainedBM25 (fun x => x) (fun _ _ _ => []) (fun _ _ _ _ => [])
    [reqDenseW, reqTextW] none none reqDenseW reqTextW rfl rfl (Or.inl rfl)).1


/-! ### FakeSnapshotManager (test/doubles/fake-snapshot-manager.ts)

The in-memory registry of per-codebase indexing states; it is a pure
state record, so every read is necessarily in-memory (there is no disk
write whose completion could matter). -/

/-- Completion status of an indexed codebase. -/
inductive IndexCompletion where
  | completed
  | limit_reached
deriving DecidableEq

/-- Per-codebase info record (config.ts `CodebaseInfo` union). -/
inductive CodebaseInfo where
  | indexing (indexingPercentage : ℚ) (lastUpdated : String)
  | indexed (indexedFiles : ℕ) (totalChunks : ℕ) (indexStatus : IndexCompletion)
      (lastUpdated : String)
  | indexfailed (errorMessage : String) (lastAttemptedPercentage : Option ℚ)
      (lastUpdated : String)
deriving DecidableEq

/-- Stats argument of `setCodebaseIndexed`. -/
structure IndexStats where
  indexedFiles : ℕ
  totalChunks : ℕ
  status : IndexCompletion
deriving DecidableEq

/-- State of the fake snapshot manager (JS arrays and `Map`s in
insertion order). -/
structure FakeSnapshotManager where
  indexedCodebases : List String
  indexingCodebases : List (String × ℚ)
  codebaseFileCount : List (String × ℕ)
  codebaseInfoMap : List (String × CodebaseInfo)
deriving DecidableEq

/-- Method `setCodebaseIndexed`: add to the indexed list (if absent),
remove from the indexing map, record the file count and the info
record. `now` stands for `new Date().toISOString()`. -/
def FakeSnapshotManager.setCodebaseIndexed (s : FakeSnapshotManager)
    (codebasePath : String) (stats : IndexStats) (now : String) : FakeSnapshotManager :=
  { indexedCodebases :=
      if s.indexedCodebases.contains codebasePath then s.indexedCodebases
      else s.indexedCodebases ++ [codebasePath]
    indexingCodebases := s.indexingCodebases.filter (fun p => p.1 != codebasePath)
    codebaseFileCount := assocSet s.codebaseFileCount codebasePath stats.indexedFiles
    codebaseInfoMap := assocSet s.codebaseInfoMap codebasePath
      (.indexed stats.indexedFiles stats.totalChunks stats.status now) }

/-- Method `getIndexedCodebases` (returns a copy of the array). -/
def FakeSnapshotManager.getIndexedCodebases (s : FakeSnapshotManager) : List String :=
  s.indexedCodebases

/-- Method `getIndexingCodebases` (keys of the indexing map). -/
def FakeSnapshotManager.getIndexingCodebases (s : FakeSnapshotManager) : List String :=
  s.indexingCodebases.map (fun p => p.1)

/-- Method `getIndexingProgress`. -/
def FakeSnapshotManager.getIndexingProgress (s : FakeSnapshotManager)
    (codebasePath : String) : Option ℚ :=
  alookup s.indexingCodebases codebasePath

/-- Method `getCodebaseInfo`. -/
def FakeSnapshotManager.getCodebaseInfo (s : FakeSnapshotManager)
    (codebasePath : String) : Option CodebaseInfo :=
  alookup s.codebaseInfoMap codebasePath

theorem lookup_append_new {β : Type} (l : List (String × β)) (key : String) (v : β)
    (h : ∀ p ∈ l, (p.1 == key) = false) :
    (l ++ [(key, v)]).lookup key = some v := by
  induction l with
  | nil => simp [List.lookup]
  | cons x xs ih =>
    obtain ⟨kx, vx⟩ := x
    have hx := h (kx, vx) (List.mem_cons_self _ _)
    have hbeq : (key == kx) = false := by
      rcases Bool.eq_false_iff.mp hx with _
      apply Bool.eq_false_iff.mpr
      intro hc
      exact Bool.eq_false_iff.mp hx (by
        have : key = kx := by simpa using hc
        simp [this])
    simp only [List.cons_append, List.lookup, hbeq]
    exact ih (fun p hp => h p (List.mem_cons.mpr (Or.inr hp)))

theorem lookup_map_set {β : Type} (l : List (String × β)) (key : String) (v : β)
    (h : l.any (fun p => p.1 == key) = true) :
    (l.map (fun p => if p.1 == key then (key, v) else p)).lookup key = some v := by
  induction l with
  | nil => simp at h
  | cons x xs ih =>
    obtain ⟨kx, vx⟩ := x
    rw [List.map_cons]
    by_cases hx : ((kx, vx).1 == key) = true
    · rw [if_pos hx]
      simp [List.lookup]
    · rw [if_neg hx]
      have h2 : xs.any (fun p => p.1 == key) = true := by
        rcases List.any_eq_true.mp h with ⟨p, hp, hpe⟩
        rcases List.mem_cons.mp hp with h3 | h3
        · exact absurd (h3 ▸ hpe) hx
        · exact List.any_eq_true.mpr ⟨p, h3, hpe⟩
      have hbeq : (key == kx) = false := by
        apply Bool.eq_false_iff.mpr
        intro hc
        apply hx
        have hkk : key = kx := by simpa using hc
        simp [hkk]
      simp only [List.lookup, hbeq]
      exact ih h2

theorem lookup_assocSet {β : Type} (l : List (String × β)) (key : String) (v : β) :
    (assocSet l key v).lookup key = some v := by
  unfold assocSet
  by_cases h : l.any (fun p => p.1 == key) = true
  · rw [if_pos h]
    exact lookup_map_set l key v h
  · rw [if_neg h]
    apply lookup_append_new
    intro p hp
    apply Bool.eq_false_iff.mpr
    intro hc
    exact h (List.any_eq_true.mpr ⟨p, hp, hc⟩)

/-- Claim C8: immediately after `setCodebaseIndexed(p, stats)` — a pure
in-memory update, with no disk write to wait for — the indexed-codebase
list contains `p`, the per-codebase info for `p` is the indexed state
carrying exactly the given stats, and `p` is absent from the indexing
list. -/
theorem claim_C8 (s : FakeSnapshotManager) (p : String) (stats : IndexStats)
    (now : String) :
    p ∈ (s.setCodebaseIndexed p stats now).getIndexedCodebases ∧
    (s.setCodebaseIndexed p stats now).getCodebaseInfo p =
      some (.indexed stats.indexedFiles stats.totalChunks stats.status now) ∧
    p ∉ (s.setCodebaseIndexed p stats now).getIndexingCodebases := by
  refine ⟨?_, lookup_assocSet _ _ _, ?_⟩
  · unfold FakeSnapshotManager.setCodebaseIndexed FakeSnapshotManager.getIndexedCodebases
    by_cases h : s.indexedCodebases.contains p = true
    · rw [if_pos h]
      simpa using h
    · rw [if_neg h]
      exact List.mem_append_right _ (List.mem_singleton.mpr rfl)
  · unfold FakeSnapshotManager.setCodebaseIndexed FakeSnapshotManager.getIndexingCodebases
    intro hc
    obtain ⟨q, hq, hqe⟩ := List.mem_map.mp hc
    have := (List.mem_filter.mp hq).2
    rw [hqe] at this
    simp at this

/-! ### GeminiEmbedding retry policy (gemini-embedding.ts) -/

/-- Thrown JS value, as far as the retry logic inspects it: either not
an object, or an object with optional `code`, `status` and `message`
fields of the inspected types. -/
inductive JsError where
  | nonObject
  | obj (code : Option String) (status : Option ℤ) (message : Option String)
deriving DecidableEq

/-- Retryable network error codes. -/
def networkErrorCodes : List String :=
  ["ECONNREFUSED", "ETIMEDOUT", "ENOTFOUND", "EAI_AGAIN"]

/-- Retryable HTTP status codes. -/
def retryableStatusCodes : List ℤ := [429, 500, 502, 503, 504]

/-- Retryable lowercase message fragments. -/
def retryablePatterns : List String :=
  ["rate limit", "quota exceeded", "service unavailable", "timeout", "connection"]

/-- Method `isRetryableError`. -/
def isRetryableError : JsError → Bool
  | .nonObject => false
  | .obj code status message =>
    (match code with
     | some c => networkErrorCodes.contains c
     | none => false) ||
    (match status with
     | some st => retryableStatusCodes.contains st
     | none => false) ||
    (retryablePatterns.any (fun pat =>
      containsSub (String.mk ((message.getD "").toList.map Char.toLower)) pat))

/-- Wrapped failure: `new Error(context + ": " + message)` with the
original error attached as `cause`. -/
structure WrappedError where
  context : String
  message : String
  cause : JsError
deriving DecidableEq

/-- Message extraction of the wrapper (`error instanceof Error` guards a
message read; the model treats an object with a message as an Error). -/
def errMessage : JsError → String
  | .obj _ _ (some m) => m
  | _ => "Unknown error"

/-- Build the wrapped error with `cause` set. -/
def wrapError (context : String) (e : JsError) : WrappedError :=
  ⟨context, context ++ ": " ++ errMessage e, e⟩

/-- Exponential backoff: `min(baseDelay * 2 ^ attempt, 10000)` ms. -/
def backoffDelay (baseDelay : ℚ) (attempt : ℕ) : ℚ :=
  min (baseDelay * 2 ^ attempt) 10000

/-- Loop of `executeWithRetry` from a given attempt. The operation is a
fixed schedule of per-attempt outcomes; the list accumulates every
backoff sleep issued, in order. The fuel counts the remaining loop
iterations (`maxRetries + 1 - attempt`); the fuel-zero case models the
unreachable throw after the loop. -/
def retryFrom {α : Type} (maxRetries : ℕ) (baseDelay : ℚ) (context : String)
    (op : ℕ → Except JsError α) :
    ℕ → ℕ → List ℚ → (Except WrappedError α) × List ℚ
  | 0, _, delays =>
    (.error ⟨context, context ++ ": Unknown error", .nonObject⟩, delays)
  | fuel + 1, attempt, delays =>
    match op attempt with
    | .ok a => (.ok a, delays)
    | .error e =>
      if isRetryableError e = false then (.error (wrapError context e), delays)
      else if attempt = maxRetries then (.error (wrapError context e), delays)
      else retryFrom maxRetries baseDelay context op fuel (attempt + 1)
        (delays ++ [backoffDelay baseDelay attempt])

/-- Method `executeWithRetry`: run attempts `0 .. maxRetries`. -/
def executeWithRetry {α : Type} (maxRetries : ℕ) (baseDelay : ℚ) (context : String)
    (op : ℕ → Except JsError α) : (Except WrappedError α) × List ℚ :=
  retryFrom maxRetries baseDelay context op (maxRetries + 1) 0 []

/-- Constructor default `config.maxRetries ?? 3`. -/
def geminiMaxRetries (cfg : Option ℕ) : ℕ := cfg.getD 3

/-- Constructor default `config.baseDelay ?? 1000`. -/
def geminiBaseDelay (cfg : Option ℚ) : ℚ := cfg.getD 1000

theorem retryFrom_succ_ok {α : Type} (m : ℕ) (b : ℚ) (ctx : String)
    (op : ℕ → Except JsError α) (fuel attempt : ℕ) (acc : List ℚ) (a : α)
    (hop : op attempt = .ok a) :
    retryFrom m b ctx op (fuel + 1) attempt acc = (.ok a, acc) := by
  unfold retryFrom
  rw [hop]

theorem retryFrom_succ_error {α : Type} (m : ℕ) (b : ℚ) (ctx : String)
    (op : ℕ → Except JsError α) (fuel attempt : ℕ) (acc : List ℚ) (e : JsError)
    (hop : op attempt = .error e) :
    retryFrom m b ctx op (fuel + 1) attempt acc =
      (if isRetryableError e = false then (.error (wrapError ctx e), acc)
       else if attempt = m then (.error (wrapError ctx e), acc)
       else retryFrom m b ctx op fuel (attempt + 1) (acc ++ [backoffDelay b attempt])) := by
  conv_lhs => unfold retryFrom
  rw [hop]

theorem retryFrom_delays {α : Type} (m : ℕ) (b : ℚ) (ctx : String)
    (op : ℕ → Except JsError α) :
    ∀ (fuel attempt : ℕ) (acc : List ℚ) (res : Except WrappedError α) (ds : List ℚ),
      attempt ≤ m →
      retryFrom m b ctx op fuel attempt acc = (res, ds) →
      ∃ j, ds = acc ++ (List.range j).map (fun i => backoffDelay b (attempt + i)) ∧
        attempt + j ≤ m + 1 ∧ (0 < j → attempt + j ≤ m) := by
  intro fuel
  induction fuel with
  | zero =>
    intro attempt acc res ds hatt h
    refine ⟨0, ?_, by omega, by omega⟩
    simp only [retryFrom] at h
    cases h
    simp
  | succ fuel ih =>
    intro attempt acc res ds hatt h
    match hop : op attempt with
    | .ok a =>
      rw [retryFrom_succ_ok m b ctx op fuel attempt acc a hop] at h
      cases h
      exact ⟨0, by simp, by omega, by omega⟩
    | .error e =>
      rw [retryFrom_succ_error m b ctx op fuel attempt acc e hop] at h
      by_cases hr : isRetryableError e = false
      · rw [if_pos hr] at h
        cases h
        exact ⟨0, by simp, by omega, by omega⟩
      · rw [if_neg hr] at h
        by_cases hm : attempt = m
        · rw [if_pos hm] at h
          cases h
          exact ⟨0, by simp, by omega, by omega⟩
        · rw [if_neg hm] at h
          have hlt : attempt < m := Nat.lt_of_le_of_ne hatt hm
          obtain ⟨j, hds, hb1, hb2⟩ :=
            ih (attempt + 1) (acc ++ [backoffDelay b attempt]) res ds (by omega) h
          refine ⟨j + 1, ?_, by omega, fun _ => ?_⟩
          · rw [hds, List.append_assoc]
            congr 1
            rw [List.range_succ_eq_map, List.map_cons]
            simp only [Nat.add_zero, List.map_map]
            rw [List.singleton_append]
            congr 1
            apply List.map_congr_left
            intro i _
            simp only [Function.comp]
            congr 1
            omega
          · by_cases hj : 0 < j
            · have := hb2 hj
              omega
            · omega

theorem retryFrom_exhaust {α : Type} (m : ℕ) (b : ℚ) (ctx : String)
    (op : ℕ → Except JsError α) (es : ℕ → JsError)
    (hop : ∀ i, i ≤ m → op i = .error (es i))
    (hret : ∀ i, i ≤ m → isRetryableError (es i) = true) :
    ∀ (fuel attempt : ℕ) (acc : List ℚ),
      attempt + fuel = m + 1 → attempt ≤ m →
      retryFrom m b ctx op fuel attempt acc =
        (.error (wrapError ctx (es m)),
          acc ++ (List.range (m - attempt)).map (fun i => backoffDelay b (attempt + i))) := by
  intro fuel
  induction fuel with
  | zero =>
    intro attempt acc hsum hle
    omega
  | succ fuel ih =>
    intro attempt acc hsum hle
    rw [retryFrom_succ_error m b ctx op fuel attempt acc (es attempt) (hop attempt hle)]
    rw [if_neg (by rw [hret attempt hle]; simp)]
    by_cases hm : attempt = m
    · rw [if_pos hm]
      subst hm
      simp
    · rw [if_neg hm]
      have hlt : attempt < m := Nat.lt_of_le_of_ne hle hm
      rw [ih (attempt + 1) (acc ++ [backoffDelay b attempt]) (by omega) (by omega)]
      rw [List.append_assoc]
      congr 2
      have hms : m - attempt = (m - (attempt + 1)) + 1 := by omega
      rw [hms, List.range_succ_eq_map, List.map_cons]
      simp only [Nat.add_zero, List.map_map]
      rw [List.singleton_append]
      congr 1
      apply List.map_congr_left
      intro i _
      simp only [Function.comp]
      congr 1
      omega

/-- Claim C9: a non-retryable error surfaces immediately (no backoff
sleeps), wrapped with the original error attached as `cause`; every
network-code and retryable-status error is classified retryable; each
backoff sleep for attempt `i` lasts `min(baseDelay * 2 ^ i, 10000)` ms
and at most `maxRetries` sleeps occur; when every attempt fails
retryably the call retries up to the configured maximum and then
surfaces the last error wrapped; and the retry maximum defaults to 3. -/
theorem claim_C9 :
    (∀ (α : Type) (m : ℕ) (b : ℚ) (ctx : String) (op : ℕ → Except JsError α) (e : JsError),
       op 0 = .error e → isRetryableError e = false →
       executeWithRetry m b ctx op = (.error (wrapError ctx e), [])) ∧
    (∀ ctx e, (wrapError ctx e).cause = e) ∧
    (∀ c ∈ networkErrorCodes, ∀ st msg, isRetryableError (.obj (some c) st msg) = true) ∧
    (∀ st ∈ retryableStatusCodes, ∀ code msg,
       isRetryableError (.obj code (some st) msg) = true) ∧
    (∀ (α : Type) (m : ℕ) (b : ℚ) (ctx : String) (op : ℕ → Except JsError α)
       (res : Except WrappedError α) (ds : List ℚ),
       executeWithRetry m b ctx op = (res, ds) →
       ds = (List.range ds.length).map (fun i => backoffDelay b i) ∧ ds.length ≤ m) ∧
    (∀ (α : Type) (m : ℕ) (b : ℚ) (ctx : String) (op : ℕ → Except JsError α)
       (es : ℕ → JsError),
       (∀ i, i ≤ m → op i = .error (es i)) →
       (∀ i, i ≤ m → isRetryableError (es i) = true) →
       executeWithRetry m b ctx op =
         (.error (wrapError ctx (es m)), (List.range m).map (fun i => backoffDelay b i))) ∧
    geminiMaxRetries none = 3 ∧ geminiBaseDelay none = 1000 := by
  refine ⟨?_, fun ctx e => rfl, ?_, ?_, ?_, ?_, rfl, rfl⟩
  · intro α m b ctx op e hop hnr
    unfold executeWithRetry
    rw [retryFrom_succ_error m b ctx op m 0 [] e hop]
    rw [if_pos hnr]
  · intro c hc st msg
    simp [isRetryableError, hc]
  · intro st hst code msg
    cases code with
    | none => simp [isRetryableError, hst]
    | some c => simp [isRetryableError, hst]
  · intro α m b ctx op res ds h
    obtain ⟨j, hds, hb1, hb2⟩ := retryFrom_delays m b ctx op (m + 1) 0 [] res ds
      (Nat.zero_le m) h
    simp only [List.nil_append, Nat.zero_add] at hds
    have hlen : ds.length = j := by rw [hds]; simp
    constructor
    · rw [hlen, hds]
    · by_cases hj : 0 < j
      · have := hb2 hj
        omega
      · omega
  · intro α m b ctx op es hop hret
    unfold executeWithRetry
    rw [retryFrom_exhaust m b ctx op es hop hret (m + 1) 0 [] (by omega) (by omega)]
    simp

/-- Schedule that always fails non-retryably, for the witness. -/
def opNonRetryable (_ : ℕ) : Except JsError ℕ := .error .nonObject

theorem claim_C9_witness :
    executeWithRetry 3 1000 "Gemini embedding failed" opNonRetryable =
      (.error (wrapError "Gemini embedding failed" .nonObject), []) :=
  claim_C9.1 ℕ 3 1000 "Gemini embedding failed" opNonRetryable .nonObject rfl rfl


end AIContext
